import Mathlib

/-!
Verification development for the Tagify backend's background work
orchestration subsystem (packages/backend/src/services).

The tagging job queue (`ai_jobs.py`) is modelled as a labelled transition
system whose atomic steps correspond to the synchronous blocks between
`await` points of `AIJobManager`: `enqueue`, `cancel`, and the worker
loop's job pick-up, per-image processing, cooperative-cancellation
observation, and job finalisation.  The scanner (`scanner.py`) is modelled
by pure functions for the per-file pipeline (`_process_image`), the
coordinator's result handling, the catalog upsert (`$set` together with
`$setOnInsert` defaults) and the stale-record reconciliation.  The model
resource manager's idle-unload tick (`ai_tagger.py`) and the inference
result merge of `_tag_one` are modelled as pure functions as well.
-/

namespace Tagify

/-! ## Generic list helpers -/

/-- Order-preserving de-duplication keeping the first occurrence, with an
accumulator of already seen elements.  Mirrors Python's
`dict.fromkeys(...)` idiom used in `AIJobManager.enqueue`. -/
def dedupSeen : List String → List String → List String
  | _, [] => []
  | seen, x :: xs =>
    if x ∈ seen then dedupSeen seen xs else x :: dedupSeen (x :: seen) xs

/-- `list(dict.fromkeys(l))`: de-duplicate preserving first occurrences. -/
def dedupFirst (l : List String) : List String := dedupSeen [] l

/-- Set-union on lists used as finite sets: add the members of `xs` that are
not yet present (`self._in_flight.add(image_id)` for each id). -/
def addAll (s : List String) (xs : List String) : List String :=
  s ++ xs.filter (fun x => x ∉ s)

/-- Set-difference on lists used as finite sets
(`self._in_flight.discard(image_id)` for each id). -/
def removeAll (s : List String) (xs : List String) : List String :=
  s.filter (fun x => x ∉ xs)

/-! ## Tagging job queue (`services/ai_jobs.py`) -/

/-- Job status strings of `AIJob.status`. -/
inductive JStatus where
  | queued | running | cancelling | cancelled | done | error
deriving DecidableEq, Repr

/-- Terminal statuses: `done`, `error`, `cancelled`. -/
def JStatus.isTerminal : JStatus → Bool
  | .done => true
  | .error => true
  | .cancelled => true
  | _ => false

/-- The `AIJob` dataclass.  `ids` is the private `_ids` attribute (the
accepted work list) and `pos` records how many of `ids` the worker loop has
already iterated over (a model artifact of the worker's loop position;
`current` is not modelled). -/
structure AIJob where
  jid : Nat
  status : JStatus
  total : Nat
  done : Nat
  failed : Nat
  skipped : Nat
  cancel_requested : Bool
  ids : List String
  pos : Nat
deriving DecidableEq, Repr

/-- The `AIJobManager` state: the job table `_jobs`, the `_JobQueue` deque
(as the list of queued job ids in FIFO order), the shared `_in_flight` id
set, and the job the single worker is currently processing (`none` while
the worker is blocked in `get`). -/
structure MState where
  jobs : List AIJob
  queue : List Nat
  inFlight : List String
  active : Option Nat
deriving DecidableEq, Repr

/-- Fresh manager state. -/
def initState : MState := { jobs := [], queue := [], inFlight := [], active := none }

/-- `unique_ids = list(dict.fromkeys([i for i in ids if i]))`. -/
def cleanIds (ids : List String) : List String :=
  dedupFirst (ids.filter (fun i => i ≠ ""))

/-- Update the job with id `jid` in place (jobs are mutated through the
shared `_jobs` table). -/
def updJob (jobs : List AIJob) (jid : Nat) (f : AIJob → AIJob) : List AIJob :=
  jobs.map (fun j => if j.jid = jid then f j else j)

/-- `self._jobs.get(job_id)`. -/
def jobOf (s : MState) (jid : Nat) : Option AIJob :=
  s.jobs.find? (fun j => j.jid == jid)

/-- The `accepted` list of `AIJobManager.enqueue`: all unique ids when
`force`, else the unique ids not currently in flight, in order. -/
def acceptedIds (s : MState) (ids : List String) (force : Bool) : List String :=
  if force then cleanIds ids
  else (cleanIds ids).filter (fun i => i ∉ s.inFlight)

/-- The `skipped` counter computed by `AIJobManager.enqueue`: the number of
unique ids found in the in-flight set (zero when `force`). -/
def skippedCount (s : MState) (ids : List String) (force : Bool) : Nat :=
  if force then 0
  else ((cleanIds ids).filter (fun i => i ∈ s.inFlight)).length

/-- The `AIJob` object constructed by `enqueue`: `total` is the number of
accepted ids, and a job with nothing to do is created directly in `done`
status. -/
def newJob (s : MState) (jid : Nat) (ids : List String) (force : Bool) : AIJob :=
  { jid := jid
    status := if (acceptedIds s ids force).isEmpty then .done else .queued
    total := (acceptedIds s ids force).length
    done := 0
    failed := 0
    skipped := skippedCount s ids force
    cancel_requested := false
    ids := acceptedIds s ids force
    pos := 0 }

/-- `AIJobManager.enqueue`: in-call de-duplication, exclusion of in-flight
ids (unless `force`), job creation, in-flight registration of every
accepted id, and queueing of the job exactly when some id was accepted. -/
def enqueueRun (s : MState) (jid : Nat) (ids : List String) (force : Bool) :
    MState :=
  { jobs := s.jobs ++ [newJob s jid ids force]
    queue := if (acceptedIds s ids force).isEmpty then s.queue
      else s.queue ++ [jid]
    inFlight := addAll s.inFlight (acceptedIds s ids force)
    active := s.active }

/-- `AIJobManager.cancel`: a `queued` job is removed from the queue, marked
`cancelled` and its ids are released from the in-flight set (the returned
flag is the result of `_JobQueue.remove`); a `running`/`cancelling` job
gets `cancel_requested` set and status `cancelling`, returning `True`;
terminal jobs (and unknown ids) return `False` unchanged. -/
def cancelRun (s : MState) (jid : Nat) : MState × Bool :=
  match s.jobs.find? (fun j => j.jid == jid) with
  | none => (s, false)
  | some j =>
    if j.status = .queued then
      ({ s with
          queue := s.queue.erase jid,
          jobs := updJob s.jobs jid (fun j0 => { j0 with status := .cancelled }),
          inFlight := removeAll s.inFlight j.ids }, jid ∈ s.queue)
    else if j.status = .running ∨ j.status = .cancelling then
      ({ s with
          jobs := updJob s.jobs jid (fun j0 =>
            { j0 with cancel_requested := true, status := .cancelling }) }, true)
    else (s, false)

/-- Counter update for one processed image id: `job.done += 1` on success,
`job.failed += 1` on exception (the model's `pos` advances either way). -/
def tagStepJob (ok : Bool) (j0 : AIJob) : AIJob :=
  if ok then { j0 with pos := j0.pos + 1, done := j0.done + 1 }
  else { j0 with pos := j0.pos + 1, failed := j0.failed + 1 }

/-- One iteration of the worker's `for image_id in ids` loop in which
`cancel_requested` was observed unset and `_tag_one` either succeeded
(`ok = true`, `job.done += 1`) or raised (`ok = false`, `job.failed += 1`). -/
def workStep (s : MState) (ok : Bool) : Option MState :=
  match s.active with
  | some jid =>
    match s.jobs.find? (fun j => j.jid == jid) with
    | some j =>
      if j.cancel_requested = false ∧ j.pos < j.ids.length then
        some { s with jobs := updJob s.jobs jid (tagStepJob ok) }
      else none
    | none => none
  | none => none

/-- The worker observes `cancel_requested` at the top of the per-id loop:
the job is marked `cancelled`, the loop breaks, and the `finally` block
releases the job's ids from the in-flight set. -/
def observeRun (s : MState) : Option MState :=
  match s.active with
  | some jid =>
    match s.jobs.find? (fun j => j.jid == jid) with
    | some j =>
      if j.cancel_requested = true ∧ j.pos < j.ids.length then
        some { s with
          jobs := updJob s.jobs jid (fun j0 => { j0 with status := .cancelled }),
          inFlight := removeAll s.inFlight j.ids,
          active := none }
      else none
    | none => none
  | none => none

/-- The per-id loop ran to completion: unless the job was already marked
`cancelled`, its status becomes `done` when `failed == 0` and `error`
otherwise, and the `finally` block releases the job's ids. -/
def finishRun (s : MState) : Option MState :=
  match s.active with
  | some jid =>
    match s.jobs.find? (fun j => j.jid == jid) with
    | some j =>
      if j.pos = j.ids.length then
        some { s with
          jobs := updJob s.jobs jid (fun j0 =>
            if j0.status = .cancelled then j0
            else { j0 with status := if j0.failed = 0 then .done else .error }),
          inFlight := removeAll s.inFlight j.ids,
          active := none }
      else none
    | none => none
  | none => none

/-- Events corresponding to the manager's atomic blocks. -/
inductive Ev where
  | enqueue (jid : Nat) (ids : List String) (force : Bool)
  | cancel (jid : Nat)
  | pick
  | stepOk
  | stepFail
  | observeCancel
  | finish
deriving DecidableEq, Repr

/-- One atomic step.  `enqueue` requires a fresh job id (uuid4 hex values
never collide); `pick` is the worker's `get` from the queue followed by the
`cancelled` check and the `running` assignment. -/
def step (s : MState) : Ev → Option MState
  | .enqueue jid ids force =>
    if s.jobs.any (fun j => j.jid == jid) then none
    else some (enqueueRun s jid ids force)
  | .cancel jid => some (cancelRun s jid).1
  | .pick =>
    match s.active, s.queue with
    | none, jid :: rest =>
      match s.jobs.find? (fun j => j.jid == jid) with
      | none => some { s with queue := rest }
      | some j =>
        if j.status = .cancelled then some { s with queue := rest }
        else some { s with
          queue := rest
          active := some jid
          jobs := updJob s.jobs jid (fun j0 => { j0 with status := .running }) }
    | _, _ => none
  | .stepOk => workStep s true
  | .stepFail => workStep s false
  | .observeCancel => observeRun s
  | .finish => finishRun s

/-- States reachable from `initState` by steps whose events all satisfy
`P`. -/
inductive ReachP (P : Ev → Prop) : MState → Prop where
  | init : ReachP P initState
  | next {s e s'} : ReachP P s → P e → step s e = some s' → ReachP P s'

/-- Reachability under arbitrary call sequences. -/
def Reach : MState → Prop := ReachP (fun _ => True)

/-- Event filter: every `enqueue` uses `force = false`. -/
def NoForce : Ev → Prop := fun e =>
  match e with
  | .enqueue _ _ force => force = false
  | _ => True

/-- Reachability under call sequences that never pass `force=True`. -/
def ReachNF : MState → Prop := ReachP NoForce

/-! ## Library scanner (`services/scanner.py`) -/

/-- The per-file document built by `_process_image` (the `doc` dict whose
fields are written through `$set`).  `id` is the stable
`f"{library_id}:{rel}"` identity, also used as the Mongo `_id`. -/
structure ScanDoc where
  id : String
  library_id : String
  path : String
  size : Nat
  width : Nat
  height : Nat
  ctime : Int
  mtime : Int
  original_key : String
  thumb_key : Option String
deriving DecidableEq, Repr

/-- A catalog (`images` collection) record, restricted to the fields the
scanner reads or writes.  `original_key` is optional because records
written by older code paths may hold `null`. -/
structure CatalogRec where
  library_id : String
  path : String
  size : Nat
  width : Nat
  height : Nat
  ctime : Int
  mtime : Int
  original_key : Option String
  thumb_key : Option String
  tags : List String
  has_tags : Bool
deriving DecidableEq, Repr

/-- Effect of the `$set` operator of the scan upsert on an existing record:
all metadata fields are overwritten, `tags` and `has_tags` (which appear
only under `$setOnInsert`) are untouched. -/
def setFields (r : CatalogRec) (d : ScanDoc) : CatalogRec :=
  { r with
    library_id := d.library_id
    path := d.path
    size := d.size
    width := d.width
    height := d.height
    ctime := d.ctime
    mtime := d.mtime
    original_key := some d.original_key
    thumb_key := d.thumb_key }

/-- Record created when the upsert inserts: the `$set` document plus the
`$setOnInsert` defaults `tags = []`, `has_tags = false`. -/
def insertDefaults (d : ScanDoc) : CatalogRec :=
  { library_id := d.library_id
    path := d.path
    size := d.size
    width := d.width
    height := d.height
    ctime := d.ctime
    mtime := d.mtime
    original_key := some d.original_key
    thumb_key := d.thumb_key
    tags := []
    has_tags := false }

/-- The catalog as a map from `_id` to record (Mongo `_id` values are
unique). -/
abbrev CatalogF := String → Option CatalogRec

/-- Mongo upsert semantics of one
`UpdateOne({_id: doc._id}, {$set: doc, $setOnInsert: {tags: [], has_tags: false}}, upsert=True)`
against the catalog map. -/
def upsertF (c : CatalogF) (d : ScanDoc) : CatalogF :=
  fun k =>
    if k = d.id then
      some (match c d.id with
        | some r => setFields r d
        | none => insertDefaults d)
    else c k

/-- The processing phase of `scan_library_async._run`: all successful
per-file docs are flushed through bulk upserts (batching does not change
the per-key result, every op is keyed by its `_id`). -/
def applyDocsF (c : CatalogF) (docs : List ScanDoc) : CatalogF :=
  docs.foldl upsertF c

/-- Stale-record reconciliation, per key: a record of the scanned library
whose id was not discovered during enumeration is deleted, every other
record survives. -/
def reconcileF (c : CatalogF) (lib : String) (disc : List String) : CatalogF :=
  fun k =>
    match c k with
    | some r => if r.library_id = lib ∧ k ∉ disc then none else some r
    | none => none

/-- A whole scan over the catalog map: process (bulk upsert) the successful
docs, then reconcile stale records against the discovered-id set. -/
def runScanF (c : CatalogF) (lib : String) (docs : List ScanDoc)
    (disc : List String) : CatalogF :=
  reconcileF (applyDocsF c docs) lib disc

/-- The catalog as the list of its `(_id, record)` pairs, used to model the
enumeration queries of the reconciliation phase. -/
abbrev Catalog := List (String × CatalogRec)

/-- The stale documents: `images.find({library_id: lib})` filtered to ids
absent from `discovered_image_ids`. -/
def staleEntries (c : Catalog) (lib : String) (disc : List String) : Catalog :=
  c.filter (fun kv => kv.2.library_id = lib ∧ kv.1 ∉ disc)

/-- `images.delete_many({_id: {$in: stale_image_ids}})`. -/
def reconcileCatalog (c : Catalog) (lib : String) (disc : List String) : Catalog :=
  let staleIds := (staleEntries c lib disc).map Prod.fst
  c.filter (fun kv => kv.1 ∉ staleIds)

/-- The blob keys referenced by the docs of a catalog slice: each doc
contributes its `original_key` and `thumb_key` when present. -/
def blobKeysOf (l : Catalog) : List String :=
  l.foldr
    (fun kv acc =>
      (match kv.2.original_key with | some k => [k] | none => []) ++
      (match kv.2.thumb_key with | some k => [k] | none => []) ++ acc) []

/-- `stale_minio_keys`: for every stale doc, its `original_key` and
`thumb_key` when present. -/
def staleBlobKeys (c : Catalog) (lib : String) (disc : List String) : List String :=
  blobKeysOf (staleEntries c lib disc)

/-- Outcome of the reconciliation phase: the catalog after deletion, the
blob store contents, and whether the scan failed in this phase. -/
structure ReconcileOut where
  catalog : Catalog
  blobs : List String
  scanFailed : Bool
deriving DecidableEq, Repr

/-- The reconciliation phase of `_run`: catalog records are deleted first;
blob-object removal is attempted afterwards inside `try: ... except: pass`,
so a failing blob store (`blobFails`) leaves the blobs untouched but never
raises out of the phase. -/
def reconcileRun (c : Catalog) (lib : String) (disc : List String)
    (blobs : List String) (blobFails : Bool) : ReconcileOut :=
  let keys := staleBlobKeys c lib disc
  { catalog := reconcileCatalog c lib disc
    blobs := if blobFails then blobs else blobs.filter (fun b => b ∉ keys)
    scanFailed := false }

/-- Result of an upload after `_retry`'s bounded attempts: either the key
returned by the store or the exception message that was re-raised. -/
inductive UpRes where
  | ok (key : String)
  | err (msg : String)
deriving DecidableEq, Repr

/-- The `_ScanResult` dataclass: either a successful doc or a failure with
`image_id`, `stage` and `error`. -/
inductive ScanRes where
  | ok (doc : ScanDoc)
  | failure (image_id : String) (stage : String) (error : String)
deriving DecidableEq, Repr

/-- Outcomes of the external effects performed by `_process_image` for one
file: `stat`/path inspection, `PIL` dimension decoding (`none` when the
image cannot be decoded), in-memory thumbnail generation, and the two
uploads (each abstracting `_retry`'s final outcome). -/
structure FileEnv where
  statOk : Bool
  statError : String
  rel : String
  path : String
  size : Nat
  ctime : Int
  mtime : Int
  dims : Option (Nat × Nat)
  thumbGenerated : Bool
  origUpload : UpRes
  thumbUpload : UpRes
deriving DecidableEq, Repr

/-- `_process_image`: stat failure fails the file at stage `"process"`;
a failed original upload fails the file at stage `"upload_original"`;
dimension-decoding failure degrades to `width = height = 0`; thumbnail
generation or upload failure degrades to `thumb_key = None`. -/
def process_image (lib : String) (e : FileEnv) : ScanRes :=
  if e.statOk = false then .failure (lib ++ ":<unknown>") "process" e.statError
  else
    let wh := e.dims.getD (0, 0)
    let image_id := lib ++ ":" ++ e.rel
    match e.origUpload with
    | .err msg => .failure image_id "upload_original" msg
    | .ok okey =>
      .ok { id := image_id
            library_id := lib
            path := e.path
            size := e.size
            width := wh.1
            height := wh.2
            ctime := e.ctime
            mtime := e.mtime
            original_key := okey
            thumb_key :=
              if e.thumbGenerated then
                match e.thumbUpload with
                | .ok k => some k
                | .err _ => none
              else none }

/-- The scan coordinator's per-result accumulator: `processed`, `failed`,
`failed_samples` (capped at 20) and the pending `mongo_ops` batch. -/
structure ScanAgg where
  processed : Nat
  failed : Nat
  samples : List (String × String × String)
  ops : List ScanDoc
deriving DecidableEq, Repr

/-- The coordinator's handling of one completed future in `_run`: a
successful result queues an upsert op, a failure increments `failed` and is
sampled while fewer than 20 samples were recorded. -/
def handleResult (agg : ScanAgg) (r : ScanRes) : ScanAgg :=
  match r with
  | .ok d => { agg with ops := agg.ops ++ [d], processed := agg.processed + 1 }
  | .failure iid st err =>
    { agg with
      failed := agg.failed + 1
      processed := agg.processed + 1
      samples :=
        if agg.samples.length < 20 then agg.samples ++ [(iid, st, err)]
        else agg.samples }

/-! ## Model resource manager (`services/ai_tagger.py`) -/

/-- One tick of `TaggerManager.idle_unload_loop`: returns whether `unload`
is called.  A non-positive threshold disables eviction; an unloaded model
is skipped; otherwise the model is unloaded exactly when `last_used` is set
and `now - last_used` exceeds the threshold. -/
def idleTick (loaded : Bool) (last_used : ℚ) (now : ℚ)
    (idle_unload_s : Int) : Bool :=
  if idle_unload_s ≤ 0 then false
  else if loaded = false then false
  else if last_used ≠ 0 ∧ now - last_used > (idle_unload_s : ℚ) then true
  else false

/-- The `TaggerManager` fields relevant to idle eviction. -/
structure TagSt where
  loaded : Bool
  last_used : ℚ
deriving DecidableEq, Repr

/-- Lifecycle events of the tagger manager: a completed `ensure_loaded` at
wall-clock time `t`, a `predict_bytes` call at time `t`, an explicit
`unload`, and one idle-loop tick. -/
inductive TEv where
  | load (t : ℚ)
  | predict (t : ℚ)
  | unloadModel
  | tick (now : ℚ) (idleS : Int)
deriving DecidableEq, Repr

/-- `TaggerManager.__init__`: not loaded, `last_used = 0.0`. -/
def tInit : TagSt := { loaded := false, last_used := 0 }

/-- State transitions of the tagger manager: `ensure_loaded` and
`predict_bytes` stamp `last_used = time.time()`; `unload` drops the model;
a tick unloads exactly when `idleTick` fires. -/
def tstep (s : TagSt) : TEv → TagSt
  | .load t => { loaded := true, last_used := t }
  | .predict t => { loaded := true, last_used := t }
  | .unloadModel => { s with loaded := false }
  | .tick now idleS =>
    if idleTick s.loaded s.last_used now idleS then { s with loaded := false }
    else s

/-- The wall-clock stamp carried by an event, when it has one. -/
def tevTime : TEv → Option ℚ
  | .load t => some t
  | .predict t => some t
  | _ => none

/-- Reachable tagger states, under the fact that `time.time()` is positive
whenever it is sampled. -/
inductive TReach : TagSt → Prop where
  | init : TReach tInit
  | next {s e} : TReach s → (∀ t, tevTime e = some t → 0 < t) →
      TReach (tstep s e)

/-! ## Inference result merge (`AIJobManager._tag_one`) -/

/-- Inference output as consumed by `_tag_one`: the rating distribution and
the two tag partitions, each as label/probability pairs (Python dict items
in insertion order). -/
structure InferOut where
  rating : List (String × ℚ)
  general_tags : List (String × ℚ)
  character_tags : List (String × ℚ)
deriving DecidableEq, Repr

/-- Python's `max(items, key=...)`: fold that replaces the current best
only on a strictly greater key, so the first maximal element wins. -/
def maxKV (kv : String × ℚ) (rest : List (String × ℚ)) : String × ℚ :=
  rest.foldl (fun best cur => if cur.2 > best.2 then cur else best) kv

/-- The `rating_label` computation of `_tag_one`: `"-"` when the rating map
is empty, otherwise the label of maximal probability. -/
def ratingLabel (rating_map : List (String × ℚ)) : String :=
  match rating_map with
  | [] => "-"
  | kv :: rest => (maxKV kv rest).1

/-- The fields of the `$set`/`$addToSet` update document built by
`_tag_one` that this development reasons about. -/
structure TagUpdate where
  rating : String
  ai_tags : List String
  has_ai_tags : Bool
deriving DecidableEq, Repr

/-- The merge of one inference result into the update document: AI tags
are the de-duplicated union of general and character labels, the rating is
the maximal-probability label (or the `"-"` sentinel). -/
def mergeUpdate (r : InferOut) : TagUpdate :=
  let general := r.general_tags.map Prod.fst
  let chars := r.character_tags.map Prod.fst
  let ai := dedupFirst (general ++ chars)
  { rating := ratingLabel r.rating
    ai_tags := ai
    has_ai_tags := ai.isEmpty = false }

/-! ## Invariants and auxiliary predicates -/

/-- Structural invariant of the job manager, maintained by every step:
per-job counter coherence, uniqueness of job ids, and coherence of the
queue and of the worker's current job with the job table. -/
structure Inv (s : MState) : Prop where
  counters : ∀ j ∈ s.jobs,
    j.total = j.ids.length ∧ j.done + j.failed = j.pos ∧
    j.pos ≤ j.ids.length ∧
    ((j.status = .done ∨ j.status = .error) → j.pos = j.ids.length)
  jidsNodup : (s.jobs.map AIJob.jid).Nodup
  queueJobs : ∀ q ∈ s.queue, ∃ j ∈ s.jobs, j.jid = q ∧ j.status = .queued
  queueNodup : s.queue.Nodup
  activeJob : ∀ jid, s.active = some jid → ∃ j ∈ s.jobs, j.jid = jid ∧
    (j.status = .running ∨ j.status = .cancelling)

/-- Additional invariant that holds when no caller ever passes
`force=True`: every id of a non-terminal job is in the shared in-flight
set, and two distinct non-terminal jobs never share an id. -/
structure InvNF (s : MState) : Prop where
  inflight : ∀ j ∈ s.jobs, j.status.isTerminal = false → ∀ x ∈ j.ids,
    x ∈ s.inFlight
  disjointIds : ∀ j ∈ s.jobs, ∀ j' ∈ s.jobs, j.jid ≠ j'.jid →
    j.status.isTerminal = false → j'.status.isTerminal = false →
    ∀ x ∈ j.ids, x ∉ j'.ids

/-- The job `jid` is a non-terminal holder of image id `x`, `x` is in
flight, and no other non-terminal job holds `x`. -/
def SoleHolder (s : MState) (jid : Nat) (x : String) : Prop :=
  (∃ j ∈ s.jobs, j.jid = jid ∧ j.status.isTerminal = false ∧ x ∈ j.ids) ∧
  x ∈ s.inFlight ∧
  (∀ j' ∈ s.jobs, j'.jid ≠ jid → j'.status.isTerminal = false → x ∉ j'.ids)

/-- The event is a `force=True` enqueue whose unique-id list contains `x`
(the one way a second non-terminal job can come to hold `x`). -/
def EvAccepts (e : Ev) (x : String) : Prop :=
  match e with
  | .enqueue _ ids true => x ∈ cleanIds ids
  | _ => False

/-- Pointwise action of one scan upsert on the record stored under the
doc's own id. -/
def upAt (v : Option CatalogRec) (d : ScanDoc) : Option CatalogRec :=
  some (match v with | some r => setFields r d | none => insertDefaults d)

/-- Pointwise action of stale reconciliation on the record stored under
key `k`. -/
def rAt (lib : String) (disc : List String) (k : String)
    (v : Option CatalogRec) : Option CatalogRec :=
  match v with
  | some r => if r.library_id = lib ∧ k ∉ disc then none else some r
  | none => none

/-! ## Concrete example states -/

/-- Job created by `enqueue(ids=["a","b"])` on a fresh manager. -/
def exJobA : AIJob :=
  { jid := 0, status := .queued, total := 2, done := 0, failed := 0,
    skipped := 0, cancel_requested := false, ids := ["a", "b"], pos := 0 }

/-- Manager state after that enqueue. -/
def exS1 : MState :=
  { jobs := [exJobA], queue := [0], inFlight := ["a", "b"], active := none }

/-- Job created by `enqueue(ids=["a","c"])` on `exS1`: `"a"` is skipped,
`"c"` is accepted. -/
def exJobC : AIJob :=
  { jid := 1, status := .queued, total := 1, done := 0, failed := 0,
    skipped := 1, cancel_requested := false, ids := ["c"], pos := 0 }

/-- `exS1` after a further `enqueue(ids=["a","c"])`. -/
def exS1' : MState :=
  { jobs := [exJobA, exJobC], queue := [0, 1],
    inFlight := ["a", "b", "c"], active := none }

/-- `exS1` after the worker picked job 0. -/
def exS2 : MState :=
  { jobs := [{ exJobA with status := .running }], queue := [],
    inFlight := ["a", "b"], active := some 0 }

/-- `exS2` after `cancel(0)`: cooperative cancellation requested. -/
def exS3 : MState :=
  { jobs := [{ exJobA with status := .cancelling, cancel_requested := true }],
    queue := [], inFlight := ["a", "b"], active := some 0 }

/-- `exS3` after the worker observed the cancellation: the job ends
`cancelled` with `done + failed = 0 < 2 = total`. -/
def exS4 : MState :=
  { jobs := [{ exJobA with status := .cancelled, cancel_requested := true }],
    queue := [], inFlight := [], active := none }

/-- State after `enqueue(ids=["a","b","a"])` on a fresh manager. -/
def exC3s1 : MState :=
  { jobs := [exJobA], queue := [0], inFlight := ["a", "b"], active := none }

/-- `exC3s1` after `enqueue(ids=["a"])`: the id is in flight, so the job is
created empty and immediately `done`, and never queued. -/
def exC3s2 : MState :=
  { jobs := [exJobA,
      { jid := 1, status := .done, total := 0, done := 0, failed := 0,
        skipped := 1, cancel_requested := false, ids := [], pos := 0 }],
    queue := [0], inFlight := ["a", "b"], active := none }

/-- Job holding one id, as created by `enqueue(ids=["a"])`. -/
def exJobB : AIJob :=
  { jid := 0, status := .queued, total := 1, done := 0, failed := 0,
    skipped := 0, cancel_requested := false, ids := ["a"], pos := 0 }

/-- After `enqueue(0, ["a"])`. -/
def exT1 : MState :=
  { jobs := [exJobB], queue := [0], inFlight := ["a"], active := none }

/-- After a forced `enqueue(1, ["a"], force=True)`: both jobs hold `"a"`. -/
def exT2 : MState :=
  { jobs := [exJobB, { exJobB with jid := 1 }], queue := [0, 1],
    inFlight := ["a"], active := none }

/-- Worker picked job 0. -/
def exT3 : MState :=
  { jobs := [{ exJobB with status := .running }, { exJobB with jid := 1 }],
    queue := [1], inFlight := ["a"], active := some 0 }

/-- Worker tagged `"a"` successfully for job 0. -/
def exT4 : MState :=
  { jobs := [{ exJobB with status := .running, done := 1, pos := 1 },
      { exJobB with jid := 1 }],
    queue := [1], inFlight := ["a"], active := some 0 }

/-- Job 0 finished: its `finally` block released `"a"` from the in-flight
set although the forced job 1 is still queued and holds `"a"`. -/
def exT5 : MState :=
  { jobs := [{ exJobB with status := .done, done := 1, pos := 1 },
      { exJobB with jid := 1 }],
    queue := [1], inFlight := [], active := none }

/-- `exT5` after `enqueue(2, ["a"])`: the id is accepted again (skipped =
0) even though the forced job 1 is still non-terminal. -/
def exT6 : MState :=
  { jobs := [{ exJobB with status := .done, done := 1, pos := 1 },
      { exJobB with jid := 1 }, { exJobB with jid := 2 }],
    queue := [1, 2], inFlight := ["a"], active := none }

/-- A catalog record with manually assigned tags, for witnesses. -/
def exRec : CatalogRec :=
  { library_id := "L", path := "/old/a.jpg", size := 10, width := 3,
    height := 4, ctime := 5, mtime := 6, original_key := some "o1",
    thumb_key := some "t1.jpg", tags := ["hand", "tagged"], has_tags := true }

/-- A scan doc for the same image id, carrying refreshed metadata. -/
def exDoc : ScanDoc :=
  { id := "L:a.jpg", library_id := "L", path := "/lib/a.jpg", size := 11,
    width := 30, height := 40, ctime := 7, mtime := 8,
    original_key := "o2", thumb_key := some "t2.jpg" }

/-- A one-record catalog map holding `exRec` under `exDoc`'s id. -/
def exCatF : CatalogF := fun k => if k = "L:a.jpg" then some exRec else none

/-- A stale record: its backing file is gone from disk. -/
def exRecGone : CatalogRec :=
  { exRec with
    path := "/old/gone.jpg"
    original_key := some "og"
    thumb_key := some "tg.jpg" }

/-- A two-record catalog list: one discovered record, one stale record. -/
def exCat : Catalog :=
  [("L:a.jpg", exRec), ("L:gone.jpg", exRecGone)]

/-- A file-processing environment in which every effect succeeds. -/
def exEnvOk : FileEnv :=
  { statOk := true, statError := "", rel := "a.jpg", path := "/lib/a.jpg",
    size := 11, ctime := 7, mtime := 8, dims := some (30, 40),
    thumbGenerated := true, origUpload := .ok "o2",
    thumbUpload := .ok "t2.jpg" }

/-- An inference output with a non-empty rating distribution. -/
def exInfer : InferOut :=
  { rating := [("general", 1/2), ("sensitive", 3/4), ("explicit", 1/8)],
    general_tags := [("sky", 9/10), ("tree", 4/10)],
    character_tags := [("alice", 19/20)] }

/-! ## List lemmas -/

theorem mem_dedupSeen {seen l : List String} {x : String} :
    x ∈ dedupSeen seen l ↔ x ∈ l ∧ x ∉ seen := by
  induction l generalizing seen with
  | nil => simp [dedupSeen]
  | cons y ys ih =>
    simp only [dedupSeen]
    by_cases hy : y ∈ seen
    · rw [if_pos hy, ih]
      constructor
      · rintro ⟨hx, hns⟩
        exact ⟨List.mem_cons_of_mem _ hx, hns⟩
      · rintro ⟨hx, hns⟩
        rcases List.mem_cons.mp hx with rfl | hx2
        · exact absurd hy hns
        · exact ⟨hx2, hns⟩
    · rw [if_neg hy]
      constructor
      · intro hmem
        rcases List.mem_cons.mp hmem with rfl | hmem2
        · exact ⟨List.mem_cons_self _ _, hy⟩
        · rcases ih.mp hmem2 with ⟨hx, hns⟩
          exact ⟨List.mem_cons_of_mem _ hx,
            fun hs => hns (List.mem_cons_of_mem _ hs)⟩
      · rintro ⟨hx, hns⟩
        by_cases hxy : x = y
        · exact hxy ▸ List.mem_cons_self _ _
        · rcases List.mem_cons.mp hx with rfl | hx2
          · exact absurd rfl hxy
          · refine List.mem_cons_of_mem _ (ih.mpr ⟨hx2, fun hs => ?_⟩)
            rcases List.mem_cons.mp hs with rfl | hs2
            · exact hxy rfl
            · exact hns hs2

theorem mem_dedupFirst {l : List String} {x : String} :
    x ∈ dedupFirst l ↔ x ∈ l := by
  simp [dedupFirst, mem_dedupSeen]

theorem mem_cleanIds {ids : List String} {x : String} :
    x ∈ cleanIds ids ↔ x ∈ ids ∧ x ≠ "" := by
  simp [cleanIds, mem_dedupFirst, List.mem_filter]

theorem mem_addAll {s xs : List String} {x : String} :
    x ∈ addAll s xs ↔ x ∈ s ∨ x ∈ xs := by
  simp only [addAll, List.mem_append, List.mem_filter, decide_eq_true_eq]
  by_cases hx : x ∈ s <;> simp [hx]

theorem mem_removeAll {s xs : List String} {x : String} :
    x ∈ removeAll s xs ↔ x ∈ s ∧ x ∉ xs := by
  simp [removeAll, List.mem_filter]

theorem mem_updJob {jobs : List AIJob} {jid : Nat} {f : AIJob → AIJob}
    {j' : AIJob} :
    j' ∈ updJob jobs jid f ↔
      ∃ j, j ∈ jobs ∧ (if j.jid = jid then f j else j) = j' :=
  List.mem_map

theorem updJob_jids (jobs : List AIJob) (jid : Nat) (f : AIJob → AIJob)
    (hf : ∀ j, (f j).jid = j.jid) :
    (updJob jobs jid f).map AIJob.jid = jobs.map AIJob.jid := by
  simp only [updJob, List.map_map]
  refine List.map_congr_left (fun j _ => ?_)
  by_cases hj : j.jid = jid <;> simp [hj, hf]

theorem nodup_updJob {l : List AIJob} {i : Nat} {f : AIJob → AIJob}
    (hf : ∀ j0, (f j0).jid = j0.jid) (h : (l.map AIJob.jid).Nodup) :
    ((updJob l i f).map AIJob.jid).Nodup := by
  rw [updJob_jids l i f hf]
  exact h

theorem find?_jid_some {l : List AIJob} {i : Nat} {j : AIJob}
    (h : l.find? (fun j0 => j0.jid == i) = some j) : j ∈ l ∧ j.jid = i := by
  refine ⟨List.mem_of_find?_eq_some h, ?_⟩
  have h1 := List.find?_some h
  simpa using h1

theorem find?_jid_of_mem {l : List AIJob} (hn : (l.map AIJob.jid).Nodup)
    {j : AIJob} (hj : j ∈ l) :
    l.find? (fun j0 => j0.jid == j.jid) = some j := by
  induction l with
  | nil => cases hj
  | cons a l ih =>
    rw [List.map_cons, List.nodup_cons] at hn
    rcases List.mem_cons.mp hj with rfl | hj2
    · simp [List.find?]
    · have hne : (a.jid == j.jid) = false := by
        simp only [beq_eq_false_iff_ne, ne_eq]
        intro hEq
        exact hn.1 (hEq ▸ List.mem_map_of_mem AIJob.jid hj2)
      rw [List.find?_cons, hne]
      exact ih hn.2 hj2

theorem find?_updJob {l : List AIJob} {i : Nat} {f : AIJob → AIJob}
    (hf : ∀ j, (f j).jid = j.jid) :
    (updJob l i f).find? (fun j0 => j0.jid == i) =
      (l.find? (fun j0 => j0.jid == i)).map f := by
  induction l with
  | nil => rfl
  | cons a l ih =>
    by_cases ha : a.jid = i
    · simp [updJob, List.find?_cons, ha, hf]
    · simp only [updJob, List.map_cons, if_neg ha] at *
      rw [List.find?_cons, List.find?_cons]
      have : (a.jid == i) = false := by simpa using ha
      rw [this]
      exact ih

theorem jobOf_updJob {s : MState} {jid : Nat} {f : AIJob → AIJob}
    (hfj : ∀ j0, (f j0).jid = j0.jid) {j : AIJob}
    (hj : jobOf s jid = some j) {q' : List Nat} {fl' : List String}
    {a' : Option Nat} :
    jobOf { jobs := updJob s.jobs jid f
            queue := q'
            inFlight := fl'
            active := a' } jid = some (f j) := by
  show (updJob s.jobs jid f).find? (fun j0 => j0.jid == jid) = some (f j)
  rw [find?_updJob hfj]
  rw [show s.jobs.find? (fun j0 => j0.jid == jid) = some j from hj]
  rfl

theorem any_jid_false {l : List AIJob} {i : Nat}
    (h : l.any (fun j => j.jid == i) = false) : ∀ j ∈ l, j.jid ≠ i := by
  intro j hj hEq
  rw [List.any_eq_false] at h
  exact absurd (by simpa using hEq) (by simpa using h j hj)

/-! ## Scanner lemmas -/

theorem upsertF_at (c : CatalogF) (d : ScanDoc) :
    upsertF c d d.id = upAt (c d.id) d := by
  simp [upsertF, upAt]

theorem upsertF_ne (c : CatalogF) (d : ScanDoc) (k : String) (h : k ≠ d.id) :
    upsertF c d k = c k := by
  simp [upsertF, h]

theorem upAt_upAt (v : Option CatalogRec) (d d' : ScanDoc) :
    upAt (upAt v d) d' = upAt v d' := by
  cases v <;> rfl

theorem foldl_upAt_concat (v : Option CatalogRec) (L : List ScanDoc)
    (d : ScanDoc) : List.foldl upAt v (L ++ [d]) = upAt v d := by
  induction L generalizing v with
  | nil => rfl
  | cons a L ih =>
    rw [List.cons_append, List.foldl_cons, ih, upAt_upAt]

theorem applyDocsF_at (c : CatalogF) (docs : List ScanDoc) (k : String) :
    applyDocsF c docs k =
      (docs.filter (fun d => d.id = k)).foldl upAt (c k) := by
  induction docs generalizing c with
  | nil => rfl
  | cons d ds ih =>
    by_cases hk : d.id = k
    · rw [List.filter_cons_of_pos (by simpa using hk)]
      show applyDocsF (upsertF c d) ds k = _
      rw [ih, List.foldl_cons]
      subst hk
      rw [upsertF_at]
    · rw [List.filter_cons_of_neg (by simpa using hk)]
      show applyDocsF (upsertF c d) ds k = _
      rw [ih, upsertF_ne c d k (fun h => hk h.symm)]

theorem reconcileF_at (c : CatalogF) (lib : String) (disc : List String)
    (k : String) : reconcileF c lib disc k = rAt lib disc k (c k) := rfl

theorem rAt_rAt (lib : String) (disc : List String) (k : String)
    (v : Option CatalogRec) :
    rAt lib disc k (rAt lib disc k v) = rAt lib disc k v := by
  rcases v with _ | r
  · rfl
  · by_cases h : r.library_id = lib ∧ k ∉ disc
    · simp [rAt, h]
    · simp [rAt, h]

theorem rAt_of_disc (lib : String) (disc : List String) (k : String)
    (r : CatalogRec) (hk : k ∈ disc) :
    rAt lib disc k (some r) = some r := by
  simp only [rAt]
  rw [if_neg (fun h => h.2 hk)]

theorem mem_staleEntries {c : Catalog} {lib : String} {disc : List String}
    {kv : String × CatalogRec} :
    kv ∈ staleEntries c lib disc ↔
      kv ∈ c ∧ kv.2.library_id = lib ∧ kv.1 ∉ disc := by
  simp [staleEntries, List.mem_filter]

theorem mem_blobKeysOf {l : Catalog} {kv : String × CatalogRec}
    (h : kv ∈ l) :
    (∀ ko, kv.2.original_key = some ko → ko ∈ blobKeysOf l) ∧
    (∀ kt, kv.2.thumb_key = some kt → kt ∈ blobKeysOf l) := by
  induction l with
  | nil => cases h
  | cons a l ih =>
    show _ ∧ _
    rw [blobKeysOf, List.foldr_cons]
    rcases List.mem_cons.mp h with rfl | h2
    · constructor
      · intro ko hko
        simp [hko, List.mem_append]
      · intro kt hkt
        rcases hh : kv.2.original_key with _ | k0 <;>
          simp [hh, hkt, List.mem_append]
    · have hrec := ih h2
      rw [blobKeysOf] at hrec
      constructor
      · intro ko hko
        exact List.mem_append_right _ (hrec.1 ko hko)
      · intro kt hkt
        exact List.mem_append_right _ (hrec.2 kt hkt)

/-! ## Rating-merge lemmas -/

theorem maxKV_cons (kv c : String × ℚ) (rest : List (String × ℚ)) :
    maxKV kv (c :: rest) = maxKV (if c.2 > kv.2 then c else kv) rest := rfl

theorem maxKV_mem (kv : String × ℚ) (rest : List (String × ℚ)) :
    maxKV kv rest ∈ kv :: rest := by
  induction rest generalizing kv with
  | nil => simp [maxKV]
  | cons c rest ih =>
    rw [maxKV_cons]
    rcases List.mem_cons.mp (ih (if c.2 > kv.2 then c else kv)) with hEq | hmem
    · rw [hEq]
      by_cases hc : c.2 > kv.2
      · rw [if_pos hc]
        exact List.mem_cons_of_mem _ (List.mem_cons_self _ _)
      · rw [if_neg hc]
        exact List.mem_cons_self _ _
    · exact List.mem_cons_of_mem _ (List.mem_cons_of_mem _ hmem)

theorem maxKV_ge (kv : String × ℚ) (rest : List (String × ℚ)) :
    ∀ x ∈ kv :: rest, x.2 ≤ (maxKV kv rest).2 := by
  induction rest generalizing kv with
  | nil =>
    intro x hx
    rcases List.mem_cons.mp hx with rfl | h
    · exact le_refl _
    · cases h
  | cons c rest ih =>
    intro x hx
    rw [maxKV_cons]
    have hkv : kv.2 ≤ (if c.2 > kv.2 then c else kv).2 := by
      by_cases hc : c.2 > kv.2
      · rw [if_pos hc]; exact le_of_lt hc
      · rw [if_neg hc]
    have hcle : c.2 ≤ (if c.2 > kv.2 then c else kv).2 := by
      by_cases hc : c.2 > kv.2
      · rw [if_pos hc]
      · rw [if_neg hc]; exact le_of_not_lt hc
    have hhead := ih (if c.2 > kv.2 then c else kv) _
      (List.mem_cons_self _ _)
    rcases List.mem_cons.mp hx with rfl | hx2
    · exact le_trans hkv hhead
    · rcases List.mem_cons.mp hx2 with rfl | hx3
      · exact le_trans hcle hhead
      · exact ih _ x (List.mem_cons_of_mem _ hx3)

/-! ## Job-queue invariant lemmas -/

theorem jid_inj {l : List AIJob} (hn : (l.map AIJob.jid).Nodup) {a b : AIJob}
    (ha : a ∈ l) (hb : b ∈ l) (h : a.jid = b.jid) : a = b := by
  have h1 := find?_jid_of_mem hn ha
  have h2 := find?_jid_of_mem hn hb
  rw [h] at h1
  rw [h1] at h2
  exact Option.some_inj.mp h2

theorem step_enqueue_eq {s : MState} {jid : Nat} {ids : List String}
    {force : Bool} {s' : MState}
    (h : step s (.enqueue jid ids force) = some s') :
    (∀ j ∈ s.jobs, j.jid ≠ jid) ∧ s' = enqueueRun s jid ids force := by
  simp only [step] at h
  by_cases hany : s.jobs.any (fun j => j.jid == jid) = true
  · rw [if_pos hany] at h; cases h
  · rw [if_neg hany] at h
    exact ⟨any_jid_false (Bool.not_eq_true _ ▸ hany), (Option.some_inj.mp h).symm⟩

theorem step_cancel_eq {s : MState} {jid : Nat} {s' : MState}
    (h : step s (.cancel jid) = some s') : s' = (cancelRun s jid).1 := by
  simp only [step] at h
  exact (Option.some_inj.mp h).symm

theorem inv_init : Inv initState := by
  refine ⟨?_, ?_, ?_, ?_, ?_⟩ <;> simp [initState]

theorem inv_enqueue {s : MState} {jid : Nat} {ids : List String}
    {force : Bool} {s' : MState} (hI : Inv s)
    (h : step s (.enqueue jid ids force) = some s') : Inv s' := by
  obtain ⟨hfresh, rfl⟩ := step_enqueue_eq h
  constructor
  · -- counters
    intro j hj
    rcases List.mem_append.mp hj with hj1 | hj2
    · exact hI.counters j hj1
    · have hjn : j = newJob s jid ids force := List.mem_singleton.mp hj2
      subst hjn
      refine ⟨rfl, rfl, Nat.zero_le _, fun hst => ?_⟩
      by_cases hemp : (acceptedIds s ids force).isEmpty = true
      · show (0 : Nat) = (acceptedIds s ids force).length
        rw [List.isEmpty_iff] at hemp
        rw [hemp]
        rfl
      · exfalso
        have : (newJob s jid ids force).status = .queued := by
          simp [newJob, hemp]
        rcases hst with hst | hst <;> rw [this] at hst <;> cases hst
  · -- jidsNodup
    show (List.map AIJob.jid (s.jobs ++ [newJob s jid ids force])).Nodup
    rw [List.map_append, List.nodup_append]
    refine ⟨hI.jidsNodup, List.nodup_singleton _, ?_⟩
    intro a ha hb
    rcases List.mem_map.mp ha with ⟨j, hj, rfl⟩
    rcases List.mem_map.mp hb with ⟨j2, hj2, hjid2⟩
    have hj2n : j2 = newJob s jid ids force := List.mem_singleton.mp hj2
    exact hfresh j hj (by rw [← hjid2, hj2n]; rfl)
  · -- queueJobs
    intro q hq
    have hq' : q ∈ (if (acceptedIds s ids force).isEmpty then s.queue
        else s.queue ++ [jid]) := hq
    by_cases hemp : (acceptedIds s ids force).isEmpty = true
    · rw [if_pos hemp] at hq'
      obtain ⟨j1, hj1, hq1, hs1⟩ := hI.queueJobs q hq'
      exact ⟨j1, List.mem_append_left _ hj1, hq1, hs1⟩
    · rw [if_neg hemp] at hq'
      rcases List.mem_append.mp hq' with hq1 | hq2
      · obtain ⟨j1, hj1, hj1q, hs1⟩ := hI.queueJobs q hq1
        exact ⟨j1, List.mem_append_left _ hj1, hj1q, hs1⟩
      · have hqjid : q = jid := List.mem_singleton.mp hq2
        refine ⟨newJob s jid ids force,
          List.mem_append_right _ (List.mem_singleton.mpr rfl),
          by rw [hqjid]; rfl, ?_⟩
        simp [newJob, hemp]
  · -- queueNodup
    show (if (acceptedIds s ids force).isEmpty then s.queue
      else s.queue ++ [jid]).Nodup
    by_cases hemp : (acceptedIds s ids force).isEmpty = true
    · rw [if_pos hemp]; exact hI.queueNodup
    · rw [if_neg hemp, List.nodup_append]
      refine ⟨hI.queueNodup, List.nodup_singleton _, ?_⟩
      intro q hq hq2
      have hqjid : q = jid := List.mem_singleton.mp hq2
      obtain ⟨j1, hj1, hj1q, _⟩ := hI.queueJobs q hq
      exact hfresh j1 hj1 (hj1q.trans hqjid)
  · -- activeJob
    intro jid2 ha
    obtain ⟨j2, hj2, hj2q, hs2⟩ := hI.activeJob jid2 ha
    exact ⟨j2, List.mem_append_left _ hj2, hj2q, hs2⟩

theorem inv_cancel {s : MState} {jid : Nat} {s' : MState} (hI : Inv s)
    (h : step s (.cancel jid) = some s') : Inv s' := by
  obtain rfl := step_cancel_eq h
  rcases hf : s.jobs.find? (fun j0 => j0.jid == jid) with _ | j
  · simp only [cancelRun, hf]
    exact hI
  · obtain ⟨hjmem, hjid⟩ := find?_jid_some hf
    by_cases hq : j.status = .queued
    · simp only [cancelRun, hf, if_pos hq]
      constructor
      · intro j' hj'
        rcases mem_updJob.mp hj' with ⟨j0, hj0, hif⟩
        by_cases hj0id : j0.jid = jid
        · rw [if_pos hj0id] at hif
          subst hif
          obtain ⟨h1, h2, h3, _⟩ := hI.counters j0 hj0
          exact ⟨h1, h2, h3, fun hst => by rcases hst with hst | hst <;> cases hst⟩
        · rw [if_neg hj0id] at hif
          subst hif
          exact hI.counters j0 hj0
      · exact nodup_updJob (fun j0 => rfl) hI.jidsNodup
      · intro q hq2
        have hqmem : q ∈ s.queue := List.mem_of_mem_erase hq2
        have hqne : q ≠ jid :=
          ((List.Nodup.mem_erase_iff hI.queueNodup).mp hq2).1
        obtain ⟨j1, hj1, hj1q, hs1⟩ := hI.queueJobs q hqmem
        refine ⟨j1, ?_, hj1q, hs1⟩
        exact mem_updJob.mpr ⟨j1, hj1, by rw [if_neg (hj1q.symm ▸ hqne)]⟩
      · exact hI.queueNodup.erase jid
      · intro jid2 ha
        obtain ⟨j2, hj2, hj2q, hs2⟩ := hI.activeJob jid2 ha
        have hne : j2.jid ≠ jid := by
          intro hEq
          have : j2 = j := jid_inj hI.jidsNodup hj2 hjmem (hEq.trans hjid.symm)
          rw [this, hq] at hs2
          rcases hs2 with hs2 | hs2 <;> cases hs2
        refine ⟨j2, ?_, hj2q, hs2⟩
        exact mem_updJob.mpr ⟨j2, hj2, by rw [if_neg hne]⟩
    · by_cases hro : j.status = .running ∨ j.status = .cancelling
      · simp only [cancelRun, hf, if_neg hq, if_pos hro]
        constructor
        · intro j' hj'
          rcases mem_updJob.mp hj' with ⟨j0, hj0, hif⟩
          by_cases hj0id : j0.jid = jid
          · rw [if_pos hj0id] at hif
            subst hif
            obtain ⟨h1, h2, h3, _⟩ := hI.counters j0 hj0
            exact ⟨h1, h2, h3, fun hst => by rcases hst with hst | hst <;> cases hst⟩
          · rw [if_neg hj0id] at hif
            subst hif
            exact hI.counters j0 hj0
        · exact nodup_updJob (fun j0 => rfl) hI.jidsNodup
        · intro q hq2
          obtain ⟨j1, hj1, hj1q, hs1⟩ := hI.queueJobs q hq2
          have hne : j1.jid ≠ jid := by
            intro hEq
            have : j1 = j := jid_inj hI.jidsNodup hj1 hjmem (hEq.trans hjid.symm)
            rw [this] at hs1
            rcases hro with hro | hro <;> rw [hs1] at hro <;> cases hro
          refine ⟨j1, ?_, hj1q, hs1⟩
          exact mem_updJob.mpr ⟨j1, hj1, by rw [if_neg hne]⟩
        · exact hI.queueNodup
        · intro jid2 ha
          obtain ⟨j2, hj2, hj2q, hs2⟩ := hI.activeJob jid2 ha
          by_cases hj2id : j2.jid = jid
          · refine ⟨{ j2 with cancel_requested := true, status := .cancelling },
              ?_, hj2q, Or.inr rfl⟩
            exact mem_updJob.mpr ⟨j2, hj2, by rw [if_pos hj2id]⟩
          · refine ⟨j2, ?_, hj2q, hs2⟩
            exact mem_updJob.mpr ⟨j2, hj2, by rw [if_neg hj2id]⟩
      · simp only [cancelRun, hf, if_neg hq, if_neg hro]
        exact hI

theorem tagStepJob_jid (ok : Bool) (j0 : AIJob) :
    (tagStepJob ok j0).jid = j0.jid := by
  cases ok <;> rfl

theorem tagStepJob_status (ok : Bool) (j0 : AIJob) :
    (tagStepJob ok j0).status = j0.status := by
  cases ok <;> rfl

theorem tagStepJob_ids (ok : Bool) (j0 : AIJob) :
    (tagStepJob ok j0).ids = j0.ids := by
  cases ok <;> rfl

theorem tagStepJob_total (ok : Bool) (j0 : AIJob) :
    (tagStepJob ok j0).total = j0.total := by
  cases ok <;> rfl

theorem tagStepJob_pos (ok : Bool) (j0 : AIJob) :
    (tagStepJob ok j0).pos = j0.pos + 1 := by
  cases ok <;> rfl

theorem tagStepJob_sum (ok : Bool) (j0 : AIJob) :
    (tagStepJob ok j0).done + (tagStepJob ok j0).failed =
      j0.done + j0.failed + 1 := by
  cases ok
  · show j0.done + (j0.failed + 1) = j0.done + j0.failed + 1
    omega
  · show (j0.done + 1) + j0.failed = j0.done + j0.failed + 1
    omega

theorem inv_pick {s s' : MState} (hI : Inv s) (h : step s .pick = some s') :
    Inv s' := by
  rcases ha : s.active with _ | jid0
  · rcases hqe : s.queue with _ | ⟨jid0, rest⟩
    · simp only [step, ha, hqe] at h
      cases h
    · simp only [step, ha, hqe] at h
      have hqn : rest.Nodup := (List.nodup_cons.mp (hqe ▸ hI.queueNodup)).2
      have hqh : jid0 ∉ rest := (List.nodup_cons.mp (hqe ▸ hI.queueNodup)).1
      rcases hf : s.jobs.find? (fun j0 => j0.jid == jid0) with _ | j
      · simp only [hf] at h
        obtain rfl := (Option.some_inj.mp h).symm
        refine ⟨hI.counters, hI.jidsNodup, ?_, hqn, ?_⟩
        · intro q hq2
          exact hI.queueJobs q (hqe ▸ List.mem_cons_of_mem _ hq2)
        · intro jid2 hact
          simp at hact
      · simp only [hf] at h
        obtain ⟨hjmem, hjid⟩ := find?_jid_some hf
        by_cases hc : j.status = .cancelled
        · rw [if_pos hc] at h
          obtain rfl := (Option.some_inj.mp h).symm
          refine ⟨hI.counters, hI.jidsNodup, ?_, hqn, ?_⟩
          · intro q hq2
            exact hI.queueJobs q (hqe ▸ List.mem_cons_of_mem _ hq2)
          · intro jid2 hact
            simp at hact
        · rw [if_neg hc] at h
          obtain rfl := (Option.some_inj.mp h).symm
          constructor
          · intro j' hj'
            rcases mem_updJob.mp hj' with ⟨j0, hj0, hif⟩
            by_cases hj0id : j0.jid = jid0
            · rw [if_pos hj0id] at hif
              subst hif
              obtain ⟨h1, h2, h3, _⟩ := hI.counters j0 hj0
              exact ⟨h1, h2, h3,
                fun hst => by rcases hst with hst | hst <;> cases hst⟩
            · rw [if_neg hj0id] at hif
              subst hif
              exact hI.counters j0 hj0
          · exact nodup_updJob (fun j0 => rfl) hI.jidsNodup
          · intro q hq2
            obtain ⟨j1, hj1, hj1q, hs1⟩ :=
              hI.queueJobs q (hqe ▸ List.mem_cons_of_mem _ hq2)
            have hne : j1.jid ≠ jid0 := by
              intro hEq
              exact hqh ((hj1q ▸ hEq : q = jid0) ▸ hq2)
            exact ⟨j1, mem_updJob.mpr ⟨j1, hj1, by rw [if_neg hne]⟩, hj1q, hs1⟩
          · exact hqn
          · intro jid2 hact
            have hj2 : jid2 = jid0 := (Option.some_inj.mp hact).symm
            subst hj2
            refine ⟨{ j with status := .running },
              mem_updJob.mpr ⟨j, hjmem, by rw [if_pos hjid]⟩, hjid, Or.inl rfl⟩
  · rcases hqe : s.queue with _ | ⟨a, b⟩ <;> simp only [step, ha, hqe] at h <;>
      cases h

theorem inv_workStep {s : MState} {ok : Bool} {s' : MState} (hI : Inv s)
    (h : workStep s ok = some s') : Inv s' := by
  rcases ha : s.active with _ | jid
  · simp only [workStep, ha] at h
    cases h
  · simp only [workStep, ha] at h
    rcases hf : s.jobs.find? (fun j0 => j0.jid == jid) with _ | j
    · simp only [hf] at h
      cases h
    · simp only [hf] at h
      by_cases hg : j.cancel_requested = false ∧ j.pos < j.ids.length
      · rw [if_pos hg] at h
        obtain rfl := (Option.some_inj.mp h).symm
        obtain ⟨hjmem, hjid⟩ := find?_jid_some hf
        obtain ⟨j2, hj2, hj2id, hj2st⟩ := hI.activeJob jid ha
        have hj2j : j2 = j := jid_inj hI.jidsNodup hj2 hjmem (hj2id.trans hjid.symm)
        constructor
        · intro j' hj'
          rcases mem_updJob.mp hj' with ⟨j0, hj0, hif⟩
          by_cases hj0id : j0.jid = jid
          · rw [if_pos hj0id] at hif
            subst hif
            have hj0j : j0 = j :=
              jid_inj hI.jidsNodup hj0 hjmem (hj0id.trans hjid.symm)
            obtain ⟨h1, h2, h3, _⟩ := hI.counters j0 hj0
            refine ⟨by rw [tagStepJob_total, tagStepJob_ids]; exact h1,
              by rw [tagStepJob_sum, tagStepJob_pos]; omega, ?_, ?_⟩
            · rw [tagStepJob_pos, tagStepJob_ids]
              have : j0.pos < j0.ids.length := by rw [hj0j]; exact hg.2
              omega
            · intro hst
              rw [tagStepJob_status] at hst
              exfalso
              rw [hj0j] at hst
              rw [hj2j] at hj2st
              rcases hj2st with h4 | h4 <;> rw [h4] at hst <;>
                rcases hst with h5 | h5 <;> cases h5
          · rw [if_neg hj0id] at hif
            subst hif
            exact hI.counters j0 hj0
        · exact nodup_updJob (fun j0 => tagStepJob_jid ok j0) hI.jidsNodup
        · intro q hq2
          obtain ⟨j1, hj1, hj1q, hs1⟩ := hI.queueJobs q hq2
          by_cases hne : j1.jid = jid
          · exfalso
            have : j1 = j := jid_inj hI.jidsNodup hj1 hjmem (hne.trans hjid.symm)
            rw [this] at hs1
            rw [hj2j] at hj2st
            rcases hj2st with h4 | h4 <;> rw [hs1] at h4 <;> cases h4
          · exact ⟨j1, mem_updJob.mpr ⟨j1, hj1, by rw [if_neg hne]⟩, hj1q, hs1⟩
        · exact hI.queueNodup
        · intro jid2 hact
          have hj2' : jid2 = jid := (Option.some_inj.mp (ha ▸ hact)).symm
          subst hj2'
          refine ⟨tagStepJob ok j,
            mem_updJob.mpr ⟨j, hjmem, by rw [if_pos hjid]⟩, ?_, ?_⟩
          · rw [tagStepJob_jid]; exact hjid
          · rw [tagStepJob_status, ← hj2j]
            exact hj2st
      · rw [if_neg hg] at h; cases h

theorem inv_observe {s s' : MState} (hI : Inv s)
    (h : observeRun s = some s') : Inv s' := by
  rcases ha : s.active with _ | jid
  · simp only [observeRun, ha] at h
    cases h
  · simp only [observeRun, ha] at h
    rcases hf : s.jobs.find? (fun j0 => j0.jid == jid) with _ | j
    · simp only [hf] at h
      cases h
    · simp only [hf] at h
      by_cases hg : j.cancel_requested = true ∧ j.pos < j.ids.length
      · rw [if_pos hg] at h
        obtain rfl := (Option.some_inj.mp h).symm
        obtain ⟨hjmem, hjid⟩ := find?_jid_some hf
        constructor
        · intro j' hj'
          rcases mem_updJob.mp hj' with ⟨j0, hj0, hif⟩
          by_cases hj0id : j0.jid = jid
          · rw [if_pos hj0id] at hif
            subst hif
            obtain ⟨h1, h2, h3, _⟩ := hI.counters j0 hj0
            exact ⟨h1, h2, h3,
              fun hst => by rcases hst with hst | hst <;> cases hst⟩
          · rw [if_neg hj0id] at hif
            subst hif
            exact hI.counters j0 hj0
        · exact nodup_updJob (fun j0 => rfl) hI.jidsNodup
        · intro q hq2
          obtain ⟨j1, hj1, hj1q, hs1⟩ := hI.queueJobs q hq2
          have hne : j1.jid ≠ jid := by
            intro hEq
            obtain ⟨j2, hj2, hj2id, hj2st⟩ := hI.activeJob jid ha
            have : j1 = j2 := jid_inj hI.jidsNodup hj1 hj2 (hEq.trans hj2id.symm)
            rw [this] at hs1
            rcases hj2st with h4 | h4 <;> rw [hs1] at h4 <;> cases h4
          exact ⟨j1, mem_updJob.mpr ⟨j1, hj1, by rw [if_neg hne]⟩, hj1q, hs1⟩
        · exact hI.queueNodup
        · intro jid2 hact
          simp at hact
      · rw [if_neg hg] at h; cases h

theorem inv_finish {s s' : MState} (hI : Inv s)
    (h : finishRun s = some s') : Inv s' := by
  rcases ha : s.active with _ | jid
  · simp only [finishRun, ha] at h
    cases h
  · simp only [finishRun, ha] at h
    rcases hf : s.jobs.find? (fun j0 => j0.jid == jid) with _ | j
    · simp only [hf] at h
      cases h
    · simp only [hf] at h
      by_cases hg : j.pos = j.ids.length
      · rw [if_pos hg] at h
        obtain rfl := (Option.some_inj.mp h).symm
        obtain ⟨hjmem, hjid⟩ := find?_jid_some hf
        constructor
        · intro j' hj'
          rcases mem_updJob.mp hj' with ⟨j0, hj0, hif⟩
          by_cases hj0id : j0.jid = jid
          · rw [if_pos hj0id] at hif
            have hj0j : j0 = j :=
              jid_inj hI.jidsNodup hj0 hjmem (hj0id.trans hjid.symm)
            by_cases hc0 : j0.status = .cancelled
            · rw [if_pos hc0] at hif
              subst hif
              exact hI.counters j0 hj0
            · rw [if_neg hc0] at hif
              subst hif
              obtain ⟨h1, h2, h3, _⟩ := hI.counters j0 hj0
              refine ⟨h1, h2, h3, fun _ => ?_⟩
              rw [hj0j]
              exact hg
          · rw [if_neg hj0id] at hif
            subst hif
            exact hI.counters j0 hj0
        · refine nodup_updJob (fun j0 => ?_) hI.jidsNodup
          by_cases hc0 : j0.status = .cancelled
          · rw [if_pos hc0]
          · rw [if_neg hc0]
        · intro q hq2
          obtain ⟨j1, hj1, hj1q, hs1⟩ := hI.queueJobs q hq2
          have hne : j1.jid ≠ jid := by
            intro hEq
            obtain ⟨j2, hj2, hj2id, hj2st⟩ := hI.activeJob jid ha
            have : j1 = j2 := jid_inj hI.jidsNodup hj1 hj2 (hEq.trans hj2id.symm)
            rw [this] at hs1
            rcases hj2st with h4 | h4 <;> rw [hs1] at h4 <;> cases h4
          exact ⟨j1, mem_updJob.mpr ⟨j1, hj1, by rw [if_neg hne]⟩, hj1q, hs1⟩
        · exact hI.queueNodup
        · intro jid2 hact
          simp at hact
      · rw [if_neg hg] at h; cases h

theorem inv_step {s : MState} {e : Ev} {s' : MState} (hI : Inv s)
    (h : step s e = some s') : Inv s' := by
  cases e with
  | enqueue jid ids force => exact inv_enqueue hI h
  | cancel jid => exact inv_cancel hI h
  | pick => exact inv_pick hI h
  | stepOk => exact inv_workStep hI h
  | stepFail => exact inv_workStep hI h
  | observeCancel => exact inv_observe hI h
  | finish => exact inv_finish hI h

theorem reachP_inv {P : Ev → Prop} {s : MState} (h : ReachP P s) : Inv s := by
  induction h with
  | init => exact inv_init
  | next _ _ hstep ih => exact inv_step ih hstep

theorem reach_inv {s : MState} (h : Reach s) : Inv s := reachP_inv h

/-! ## The no-force in-flight invariant -/

theorem invNF_init : InvNF initState := by
  refine ⟨?_, ?_⟩ <;> intro j hj <;> simp [initState] at hj

theorem accepted_not_inflight {s : MState} {ids : List String} {x : String}
    (hx : x ∈ acceptedIds s ids false) : x ∉ s.inFlight := by
  have := (List.mem_filter.mp hx).2
  simpa using this

theorem invNF_enqueue {s : MState} {jid : Nat} {ids : List String}
    {s' : MState} (hN : InvNF s)
    (h : step s (.enqueue jid ids false) = some s') : InvNF s' := by
  obtain ⟨hfresh, rfl⟩ := step_enqueue_eq h
  constructor
  · intro j hj hterm x hx
    rcases List.mem_append.mp hj with hj1 | hj2
    · exact mem_addAll.mpr (Or.inl (hN.inflight j hj1 hterm x hx))
    · have hjn : j = newJob s jid ids false := List.mem_singleton.mp hj2
      subst hjn
      exact mem_addAll.mpr (Or.inr hx)
  · intro j hj j' hj' hne ht ht' x hx
    rcases List.mem_append.mp hj with hj1 | hj1 <;>
      rcases List.mem_append.mp hj' with hj1' | hj1'
    · exact hN.disjointIds j hj1 j' hj1' hne ht ht' x hx
    · have hjn : j' = newJob s jid ids false := List.mem_singleton.mp hj1'
      subst hjn
      intro hx'
      exact accepted_not_inflight hx' (hN.inflight j hj1 ht x hx)
    · have hjn : j = newJob s jid ids false := List.mem_singleton.mp hj1
      subst hjn
      intro hx'
      exact accepted_not_inflight hx (hN.inflight j' hj1' ht' x hx')
    · have h1 : j = newJob s jid ids false := List.mem_singleton.mp hj1
      have h2 : j' = newJob s jid ids false := List.mem_singleton.mp hj1'
      rw [h1, h2] at hne
      exact absurd rfl hne

theorem invNF_cancel {s : MState} {jid : Nat} {s' : MState} (hI : Inv s)
    (hN : InvNF s) (h : step s (.cancel jid) = some s') : InvNF s' := by
  obtain rfl := step_cancel_eq h
  rcases hf : s.jobs.find? (fun j0 => j0.jid == jid) with _ | j
  · simp only [cancelRun, hf]
    exact hN
  · obtain ⟨hjmem, hjid⟩ := find?_jid_some hf
    by_cases hq : j.status = .queued
    · simp only [cancelRun, hf, if_pos hq]
      constructor
      · intro j' hj' hterm x hx
        rcases mem_updJob.mp hj' with ⟨j0, hj0, hif⟩
        by_cases hj0id : j0.jid = jid
        · rw [if_pos hj0id] at hif
          subst hif
          simp [JStatus.isTerminal] at hterm
        · rw [if_neg hj0id] at hif
          subst hif
          refine mem_removeAll.mpr ⟨hN.inflight j0 hj0 hterm x hx, ?_⟩
          have hjnt : j.status.isTerminal = false := by rw [hq]; rfl
          exact hN.disjointIds j0 hj0 j hjmem
            (fun hEq => hj0id (hEq.trans hjid)) hterm hjnt x hx
      · intro j1 hj1 j2 hj2 hne ht1 ht2 x hx
        rcases mem_updJob.mp hj1 with ⟨j10, hj10, hif1⟩
        rcases mem_updJob.mp hj2 with ⟨j20, hj20, hif2⟩
        by_cases h10 : j10.jid = jid
        · rw [if_pos h10] at hif1
          subst hif1
          simp [JStatus.isTerminal] at ht1
        · rw [if_neg h10] at hif1
          subst hif1
          by_cases h20 : j20.jid = jid
          · rw [if_pos h20] at hif2
            subst hif2
            simp [JStatus.isTerminal] at ht2
          · rw [if_neg h20] at hif2
            subst hif2
            exact hN.disjointIds j10 hj10 j20 hj20 hne ht1 ht2 x hx
    · by_cases hro : j.status = .running ∨ j.status = .cancelling
      · simp only [cancelRun, hf, if_neg hq, if_pos hro]
        have hjnt : j.status.isTerminal = false := by
          rcases hro with h4 | h4 <;> rw [h4] <;> rfl
        constructor
        · intro j' hj' hterm x hx
          rcases mem_updJob.mp hj' with ⟨j0, hj0, hif⟩
          by_cases hj0id : j0.jid = jid
          · rw [if_pos hj0id] at hif
            subst hif
            have hj0j : j0 = j :=
              jid_inj hI.jidsNodup hj0 hjmem (hj0id.trans hjid.symm)
            have hj0nt : j0.status.isTerminal = false := by rw [hj0j]; exact hjnt
            exact hN.inflight j0 hj0 hj0nt x hx
          · rw [if_neg hj0id] at hif
            subst hif
            exact hN.inflight j0 hj0 hterm x hx
        · intro j1 hj1 j2 hj2 hne ht1 ht2 x hx
          rcases mem_updJob.mp hj1 with ⟨j10, hj10, hif1⟩
          rcases mem_updJob.mp hj2 with ⟨j20, hj20, hif2⟩
          have red : ∀ j0' : AIJob, j0' ∈ s.jobs →
              ∀ jr : AIJob,
              (if j0'.jid = jid then
                { j0' with cancel_requested := true, status := .cancelling }
                else j0') = jr →
              jr.jid = j0'.jid ∧ jr.ids = j0'.ids ∧
              (jr.status.isTerminal = false → j0'.status.isTerminal = false) := by
            intro j0' hj0' jr hif
            by_cases hj0id : j0'.jid = jid
            · rw [if_pos hj0id] at hif
              subst hif
              refine ⟨rfl, rfl, fun _ => ?_⟩
              have hj0j : j0' = j :=
                jid_inj hI.jidsNodup hj0' hjmem (hj0id.trans hjid.symm)
              rw [hj0j]
              exact hjnt
            · rw [if_neg hj0id] at hif
              subst hif
              exact ⟨rfl, rfl, fun hterm => hterm⟩
          obtain ⟨hjid1, hids1, hnt1⟩ := red j10 hj10 j1 hif1
          obtain ⟨hjid2, hids2, hnt2⟩ := red j20 hj20 j2 hif2
          rw [hids1] at hx
          rw [hids2]
          exact hN.disjointIds j10 hj10 j20 hj20
            (fun hEq => hne ((hjid1.trans hEq).trans hjid2.symm))
            (hnt1 ht1) (hnt2 ht2) x hx
      · simp only [cancelRun, hf, if_neg hq, if_neg hro]
        exact hN

theorem invNF_pick {s s' : MState} (hI : Inv s) (hN : InvNF s)
    (h : step s .pick = some s') : InvNF s' := by
  rcases ha : s.active with _ | jid0
  · rcases hqe : s.queue with _ | ⟨jid0, rest⟩
    · simp only [step, ha, hqe] at h
      cases h
    · simp only [step, ha, hqe] at h
      rcases hf : s.jobs.find? (fun j0 => j0.jid == jid0) with _ | j
      · simp only [hf] at h
        obtain rfl := (Option.some_inj.mp h).symm
        exact ⟨hN.inflight, hN.disjointIds⟩
      · simp only [hf] at h
        obtain ⟨hjmem, hjid⟩ := find?_jid_some hf
        by_cases hc : j.status = .cancelled
        · rw [if_pos hc] at h
          obtain rfl := (Option.some_inj.mp h).symm
          exact ⟨hN.inflight, hN.disjointIds⟩
        · rw [if_neg hc] at h
          obtain rfl := (Option.some_inj.mp h).symm
          have hjq : j.status = .queued := by
            obtain ⟨j1, hj1, hj1q, hs1⟩ :=
              hI.queueJobs jid0 (hqe ▸ List.mem_cons_self _ _)
            have : j1 = j := jid_inj hI.jidsNodup hj1 hjmem (hj1q.trans hjid.symm)
            rw [← this]
            exact hs1
          have red : ∀ j0' : AIJob, j0' ∈ s.jobs →
              ∀ jr : AIJob,
              (if j0'.jid = jid0 then { j0' with status := JStatus.running }
                else j0') = jr →
              jr.jid = j0'.jid ∧ jr.ids = j0'.ids ∧
              (jr.status.isTerminal = false → j0'.status.isTerminal = false) := by
            intro j0' hj0' jr hif
            by_cases hj0id : j0'.jid = jid0
            · rw [if_pos hj0id] at hif
              subst hif
              refine ⟨rfl, rfl, fun _ => ?_⟩
              have hj0j : j0' = j :=
                jid_inj hI.jidsNodup hj0' hjmem (hj0id.trans hjid.symm)
              rw [hj0j, hjq]
              rfl
            · rw [if_neg hj0id] at hif
              subst hif
              exact ⟨rfl, rfl, fun hterm => hterm⟩
          constructor
          · intro j' hj' hterm x hx
            rcases mem_updJob.mp hj' with ⟨j0, hj0, hif⟩
            obtain ⟨hjid0, hids0, hnt0⟩ := red j0 hj0 j' hif
            rw [hids0] at hx
            exact hN.inflight j0 hj0 (hnt0 hterm) x hx
          · intro j1 hj1 j2 hj2 hne ht1 ht2 x hx
            rcases mem_updJob.mp hj1 with ⟨j10, hj10, hif1⟩
            rcases mem_updJob.mp hj2 with ⟨j20, hj20, hif2⟩
            obtain ⟨hjid1, hids1, hnt1⟩ := red j10 hj10 j1 hif1
            obtain ⟨hjid2, hids2, hnt2⟩ := red j20 hj20 j2 hif2
            rw [hids1] at hx
            rw [hids2]
            exact hN.disjointIds j10 hj10 j20 hj20
              (fun hEq => hne ((hjid1.trans hEq).trans hjid2.symm))
              (hnt1 ht1) (hnt2 ht2) x hx
  · rcases hqe : s.queue with _ | ⟨a, b⟩ <;> simp only [step, ha, hqe] at h <;>
      cases h

theorem invNF_workStep {s : MState} {ok : Bool} {s' : MState} (hN : InvNF s)
    (h : workStep s ok = some s') : InvNF s' := by
  rcases ha : s.active with _ | jid
  · simp only [workStep, ha] at h
    cases h
  · simp only [workStep, ha] at h
    rcases hf : s.jobs.find? (fun j0 => j0.jid == jid) with _ | j
    · simp only [hf] at h
      cases h
    · simp only [hf] at h
      by_cases hg : j.cancel_requested = false ∧ j.pos < j.ids.length
      · rw [if_pos hg] at h
        obtain rfl := (Option.some_inj.mp h).symm
        have red : ∀ j0' : AIJob,
            ∀ jr : AIJob,
            (if j0'.jid = jid then tagStepJob ok j0' else j0') = jr →
            jr.jid = j0'.jid ∧ jr.ids = j0'.ids ∧ jr.status = j0'.status := by
          intro j0' jr hif
          by_cases hj0id : j0'.jid = jid
          · rw [if_pos hj0id] at hif
            subst hif
            exact ⟨tagStepJob_jid ok j0', tagStepJob_ids ok j0',
              tagStepJob_status ok j0'⟩
          · rw [if_neg hj0id] at hif
            subst hif
            exact ⟨rfl, rfl, rfl⟩
        constructor
        · intro j' hj' hterm x hx
          rcases mem_updJob.mp hj' with ⟨j0, hj0, hif⟩
          obtain ⟨hjid0, hids0, hst0⟩ := red j0 j' hif
          rw [hids0] at hx
          rw [hst0] at hterm
          exact hN.inflight j0 hj0 hterm x hx
        · intro j1 hj1 j2 hj2 hne ht1 ht2 x hx
          rcases mem_updJob.mp hj1 with ⟨j10, hj10, hif1⟩
          rcases mem_updJob.mp hj2 with ⟨j20, hj20, hif2⟩
          obtain ⟨hjid1, hids1, hst1⟩ := red j10 j1 hif1
          obtain ⟨hjid2, hids2, hst2⟩ := red j20 j2 hif2
          rw [hids1] at hx
          rw [hids2]
          rw [hst1] at ht1
          rw [hst2] at ht2
          exact hN.disjointIds j10 hj10 j20 hj20
            (fun hEq => hne ((hjid1.trans hEq).trans hjid2.symm)) ht1 ht2 x hx
      · rw [if_neg hg] at h
        cases h

theorem invNF_observe {s s' : MState} (hI : Inv s) (hN : InvNF s)
    (h : observeRun s = some s') : InvNF s' := by
  rcases ha : s.active with _ | jid
  · simp only [observeRun, ha] at h
    cases h
  · simp only [observeRun, ha] at h
    rcases hf : s.jobs.find? (fun j0 => j0.jid == jid) with _ | j
    · simp only [hf] at h
      cases h
    · simp only [hf] at h
      by_cases hg : j.cancel_requested = true ∧ j.pos < j.ids.length
      · rw [if_pos hg] at h
        obtain rfl := (Option.some_inj.mp h).symm
        obtain ⟨hjmem, hjid⟩ := find?_jid_some hf
        obtain ⟨j2a, hj2a, hj2aid, hj2ast⟩ := hI.activeJob jid ha
        have hj2aj : j2a = j :=
          jid_inj hI.jidsNodup hj2a hjmem (hj2aid.trans hjid.symm)
        have hjnt : j.status.isTerminal = false := by
          rw [← hj2aj]
          rcases hj2ast with h4 | h4 <;> rw [h4] <;> rfl
        constructor
        · intro j' hj' hterm x hx
          rcases mem_updJob.mp hj' with ⟨j0, hj0, hif⟩
          by_cases hj0id : j0.jid = jid
          · rw [if_pos hj0id] at hif
            subst hif
            simp [JStatus.isTerminal] at hterm
          · rw [if_neg hj0id] at hif
            subst hif
            refine mem_removeAll.mpr ⟨hN.inflight j0 hj0 hterm x hx, ?_⟩
            exact hN.disjointIds j0 hj0 j hjmem
              (fun hEq => hj0id (hEq.trans hjid)) hterm hjnt x hx
        · intro j1 hj1 j2 hj2 hne ht1 ht2 x hx
          rcases mem_updJob.mp hj1 with ⟨j10, hj10, hif1⟩
          rcases mem_updJob.mp hj2 with ⟨j20, hj20, hif2⟩
          by_cases h10 : j10.jid = jid
          · rw [if_pos h10] at hif1
            subst hif1
            simp [JStatus.isTerminal] at ht1
          · rw [if_neg h10] at hif1
            subst hif1
            by_cases h20 : j20.jid = jid
            · rw [if_pos h20] at hif2
              subst hif2
              simp [JStatus.isTerminal] at ht2
            · rw [if_neg h20] at hif2
              subst hif2
              exact hN.disjointIds j10 hj10 j20 hj20 hne ht1 ht2 x hx
      · rw [if_neg hg] at h
        cases h

theorem finish_terminal (j0 : AIJob) :
    ((if j0.status = JStatus.cancelled then j0
      else { j0 with
        status := if j0.failed = 0 then JStatus.done else JStatus.error
      }).status).isTerminal = true := by
  by_cases hc : j0.status = JStatus.cancelled
  · rw [if_pos hc, hc]
    rfl
  · rw [if_neg hc]
    show (if j0.failed = 0 then JStatus.done else JStatus.error).isTerminal = true
    by_cases hz : j0.failed = 0
    · rw [if_pos hz]
      rfl
    · rw [if_neg hz]
      rfl

theorem invNF_finish {s s' : MState} (hI : Inv s) (hN : InvNF s)
    (h : finishRun s = some s') : InvNF s' := by
  rcases ha : s.active with _ | jid
  · simp only [finishRun, ha] at h
    cases h
  · simp only [finishRun, ha] at h
    rcases hf : s.jobs.find? (fun j0 => j0.jid == jid) with _ | j
    · simp only [hf] at h
      cases h
    · simp only [hf] at h
      by_cases hg : j.pos = j.ids.length
      · rw [if_pos hg] at h
        obtain rfl := (Option.some_inj.mp h).symm
        obtain ⟨hjmem, hjid⟩ := find?_jid_some hf
        obtain ⟨j2a, hj2a, hj2aid, hj2ast⟩ := hI.activeJob jid ha
        have hj2aj : j2a = j :=
          jid_inj hI.jidsNodup hj2a hjmem (hj2aid.trans hjid.symm)
        have hjnt : j.status.isTerminal = false := by
          rw [← hj2aj]
          rcases hj2ast with h4 | h4 <;> rw [h4] <;> rfl
        constructor
        · intro j' hj' hterm x hx
          rcases mem_updJob.mp hj' with ⟨j0, hj0, hif⟩
          by_cases hj0id : j0.jid = jid
          · rw [if_pos hj0id] at hif
            subst hif
            rw [finish_terminal j0] at hterm
            cases hterm
          · rw [if_neg hj0id] at hif
            subst hif
            refine mem_removeAll.mpr ⟨hN.inflight j0 hj0 hterm x hx, ?_⟩
            exact hN.disjointIds j0 hj0 j hjmem
              (fun hEq => hj0id (hEq.trans hjid)) hterm hjnt x hx
        · intro j1 hj1 j2 hj2 hne ht1 ht2 x hx
          rcases mem_updJob.mp hj1 with ⟨j10, hj10, hif1⟩
          rcases mem_updJob.mp hj2 with ⟨j20, hj20, hif2⟩
          by_cases h10 : j10.jid = jid
          · rw [if_pos h10] at hif1
            subst hif1
            rw [finish_terminal j10] at ht1
            cases ht1
          · rw [if_neg h10] at hif1
            subst hif1
            by_cases h20 : j20.jid = jid
            · rw [if_pos h20] at hif2
              subst hif2
              rw [finish_terminal j20] at ht2
              cases ht2
            · rw [if_neg h20] at hif2
              subst hif2
              exact hN.disjointIds j10 hj10 j20 hj20 hne ht1 ht2 x hx
      · rw [if_neg hg] at h
        cases h

theorem invNF_step {s : MState} {e : Ev} {s' : MState} (hI : Inv s)
    (hN : InvNF s) (hP : NoForce e) (h : step s e = some s') : InvNF s' := by
  cases e with
  | enqueue jid ids force =>
    have hfe : force = false := hP
    subst hfe
    exact invNF_enqueue hN h
  | cancel jid => exact invNF_cancel hI hN h
  | pick => exact invNF_pick hI hN h
  | stepOk => exact invNF_workStep hN h
  | stepFail => exact invNF_workStep hN h
  | observeCancel => exact invNF_observe hI hN h
  | finish => exact invNF_finish hI hN h

theorem reachNF_invNF {s : MState} (h : ReachNF s) : InvNF s := by
  induction h with
  | init => exact invNF_init
  | next hr hP hstep ih => exact invNF_step (reachP_inv hr) ih hP hstep

/-! ## Reachability of the concrete example states -/

theorem reach_next {P : Ev → Prop} {s s' : MState} (e : Ev) (h : ReachP P s)
    (hP : P e) (hstep : step s e = some s') : ReachP P s' :=
  ReachP.next h hP hstep

theorem reachNF_exS1 : ReachNF exS1 :=
  reach_next (.enqueue 0 ["a", "b"] false) ReachP.init rfl (by decide)

theorem reach_exS1 : Reach exS1 :=
  reach_next (.enqueue 0 ["a", "b"] false) ReachP.init trivial (by decide)

theorem reach_exS2 : Reach exS2 :=
  reach_next .pick reach_exS1 trivial (by decide)

theorem reach_exS3 : Reach exS3 :=
  reach_next (.cancel 0) reach_exS2 trivial (by decide)

theorem reach_exS4 : Reach exS4 :=
  reach_next .observeCancel reach_exS3 trivial (by decide)

theorem reach_exT1 : Reach exT1 :=
  reach_next (.enqueue 0 ["a"] false) ReachP.init trivial (by decide)

theorem reach_exT2 : Reach exT2 :=
  reach_next (.enqueue 1 ["a"] true) reach_exT1 trivial (by decide)

theorem reach_exT3 : Reach exT3 :=
  reach_next .pick reach_exT2 trivial (by decide)

theorem reach_exT4 : Reach exT4 :=
  reach_next .stepOk reach_exT3 trivial (by decide)

theorem reach_exT5 : Reach exT5 :=
  reach_next .finish reach_exT4 trivial (by decide)

/-! ## Claim theorems -/

/-- C2: in every reachable manager state, every job satisfies
`done + failed ≤ total`, and a job that has reached status `done` or
`error` satisfies `done + failed = total` exactly; moreover a job
cancelled mid-run may end with `done + failed < total`, witnessed by a
reachable state holding a cancelled job with `done + failed = 0 < 2 =
total`. -/
theorem job_counter_invariant :
    (∀ s : MState, Reach s → ∀ j ∈ s.jobs,
      j.done + j.failed ≤ j.total ∧
      ((j.status = JStatus.done ∨ j.status = JStatus.error) →
        j.done + j.failed = j.total)) ∧
    (∃ s : MState, Reach s ∧ ∃ j ∈ s.jobs,
      j.status = JStatus.cancelled ∧ j.done + j.failed < j.total) := by
  constructor
  · intro s hs j hj
    obtain ⟨h1, h2, h3, h4⟩ := (reach_inv hs).counters j hj
    constructor
    · omega
    · intro hst
      have h5 := h4 hst
      omega
  · exact ⟨exS4, reach_exS4, by decide⟩

/-- Witness for C2 at the concrete reachable state `exS1`. -/
theorem job_counter_invariant_witness :
    exJobA.done + exJobA.failed ≤ exJobA.total :=
  (job_counter_invariant.1 exS1 reach_exS1 exJobA (by decide)).1

/-- C3: `enqueue(ids=["a","b","a"])` on a fresh manager creates a job with
`total = 2` (in-call de-duplication keeps the first occurrences `"a"`,
`"b"`); a subsequent `enqueue(["a"])` without force while that job is
non-terminal creates a job with `skipped = 1`, `total = 0`, directly in
status `done`, and that job never enters the queue. -/
theorem enqueue_dedup_scenario :
    step initState (Ev.enqueue 0 ["a", "b", "a"] false) = some exC3s1 ∧
    (∃ j ∈ exC3s1.jobs, j.jid = 0 ∧ j.total = 2 ∧ j.skipped = 0 ∧
      j.ids = ["a", "b"] ∧ j.status = JStatus.queued) ∧
    step exC3s1 (Ev.enqueue 1 ["a"] false) = some exC3s2 ∧
    (∃ j ∈ exC3s2.jobs, j.jid = 1 ∧ j.skipped = 1 ∧ j.total = 0 ∧
      j.status = JStatus.done) ∧
    (1 : Nat) ∉ exC3s2.queue := by
  decide

/-- C4: in any reachable state, `cancel` on a `queued` job removes it from
the pending queue, marks it `cancelled`, and releases its ids from the
in-flight set, making each of them acceptable to a subsequent
`force=false` enqueue; on a `running` or `cancelling` job it sets
`cancel_requested`, moves the status to `cancelling` and returns `True`;
on a job in a terminal status it returns `False` and leaves the state
unchanged. -/
theorem cancel_semantics (s : MState) (hs : Reach s) (jid : Nat) (j : AIJob)
    (hj : jobOf s jid = some j) :
    (j.status = JStatus.queued →
      jid ∉ (cancelRun s jid).1.queue ∧
      jobOf (cancelRun s jid).1 jid =
        some { j with status := JStatus.cancelled } ∧
      (∀ x ∈ j.ids, x ∉ (cancelRun s jid).1.inFlight) ∧
      (∀ x ∈ j.ids, x ≠ "" → ∀ jid2 ids2 s2,
        step (cancelRun s jid).1 (Ev.enqueue jid2 ids2 false) = some s2 →
        x ∈ ids2 → ∀ nj ∈ s2.jobs, nj.jid = jid2 → x ∈ nj.ids)) ∧
    ((j.status = JStatus.running ∨ j.status = JStatus.cancelling) →
      (cancelRun s jid).2 = true ∧
      jobOf (cancelRun s jid).1 jid =
        some { j with
          status := JStatus.cancelling
          cancel_requested := true }) ∧
    (j.status.isTerminal = true → cancelRun s jid = (s, false)) := by
  have hI := reach_inv hs
  have hf : s.jobs.find? (fun j0 => j0.jid == jid) = some j := hj
  obtain ⟨hjmem, hjid⟩ := find?_jid_some hf
  refine ⟨?_, ?_, ?_⟩
  · intro hq
    have hcr : (cancelRun s jid).1 = { s with
        queue := s.queue.erase jid,
        jobs := updJob s.jobs jid (fun j0 => { j0 with status := .cancelled }),
        inFlight := removeAll s.inFlight j.ids } := by
      simp only [cancelRun, hf, if_pos hq]
    rw [hcr]
    refine ⟨?_, ?_, ?_, ?_⟩
    · show jid ∉ s.queue.erase jid
      intro hmem
      exact ((hI.queueNodup.mem_erase_iff).mp hmem).1 rfl
    · refine jobOf_updJob (fun j0 => ?_) hj
      rfl
    · intro x hx hmem
      exact (mem_removeAll.mp hmem).2 hx
    · intro x hx hxne jid2 ids2 s2 hstep2 hxin nj hnj hnjid
      obtain ⟨hfresh2, rfl⟩ := step_enqueue_eq hstep2
      rcases List.mem_append.mp hnj with h1 | h1
      · exact absurd hnjid (hfresh2 nj h1)
      · have hnjn : nj = newJob _ jid2 ids2 false := List.mem_singleton.mp h1
        subst hnjn
        show x ∈ acceptedIds _ ids2 false
        have hnot : x ∉ removeAll s.inFlight j.ids :=
          fun hmem => (mem_removeAll.mp hmem).2 hx
        exact List.mem_filter.mpr
          ⟨mem_cleanIds.mpr ⟨hxin, hxne⟩, by simpa using hnot⟩
  · intro hro
    have hnq : ¬ j.status = .queued := by
      rcases hro with h4 | h4 <;> rw [h4] <;> intro hc <;> cases hc
    refine ⟨?_, ?_⟩
    · show (cancelRun s jid).2 = true
      simp only [cancelRun, hf, if_neg hnq, if_pos hro]
    · have hcr : (cancelRun s jid).1 = { s with
          jobs := updJob s.jobs jid (fun j0 =>
            { j0 with cancel_requested := true, status := .cancelling }) } := by
        simp only [cancelRun, hf, if_neg hnq, if_pos hro]
      rw [hcr]
      refine jobOf_updJob (fun j0 => ?_) hj
      rfl
  · intro hterm
    have hnq : ¬ j.status = .queued := by
      intro hc
      rw [hc] at hterm
      simp [JStatus.isTerminal] at hterm
    have hnro : ¬ (j.status = .running ∨ j.status = .cancelling) := by
      rintro (h4 | h4) <;> rw [h4] at hterm <;>
        simp [JStatus.isTerminal] at hterm
    simp only [cancelRun, hf, if_neg hnq, if_neg hnro]

/-- Witness for C4: cancelling the queued job of `exS1`. -/
theorem cancel_semantics_witness :
    (0 : Nat) ∉ (cancelRun exS1 0).1.queue ∧
    jobOf (cancelRun exS1 0).1 0 =
      some { exJobA with status := JStatus.cancelled } ∧
    (∀ x ∈ exJobA.ids, x ∉ (cancelRun exS1 0).1.inFlight) := by
  have h := (cancel_semantics exS1 reach_exS1 0 exJobA (by decide)).1 (by decide)
  exact ⟨h.1, h.2.1, h.2.2.1⟩

/-- C1: under every call sequence whose enqueues all use `force=false`,
every id of a non-terminal (queued, running or cancelling) job is held in
the shared in-flight set — since this holds at every reachable instant,
the id stays registered, hence unacceptable, until the owning job reaches
a terminal state and is released — and an `enqueue(force=false)` step from
such a state never places an id of a non-terminal job into the newly
created job's accepted list, while the new job's `skipped` counter counts
exactly the unique requested ids found in flight. -/
theorem no_duplicate_inflight (s : MState) (hs : ReachNF s) :
    (∀ j ∈ s.jobs, j.status.isTerminal = false →
      ∀ x ∈ j.ids, x ∈ s.inFlight) ∧
    (∀ jid ids s', step s (Ev.enqueue jid ids false) = some s' →
      ∀ nj ∈ s'.jobs, nj.jid = jid →
        (∀ j ∈ s.jobs, j.status.isTerminal = false →
          ∀ x ∈ j.ids, x ∉ nj.ids) ∧
        nj.skipped =
          ((cleanIds ids).filter (fun i => i ∈ s.inFlight)).length ∧
        (∀ x ∈ cleanIds ids, x ∈ s.inFlight →
          x ∈ (cleanIds ids).filter (fun i => i ∈ s.inFlight))) := by
  have hN := reachNF_invNF hs
  refine ⟨hN.inflight, ?_⟩
  intro jid ids s' hstep nj hnj hnjid
  obtain ⟨hfresh, rfl⟩ := step_enqueue_eq hstep
  rcases List.mem_append.mp hnj with h1 | h1
  · exact absurd hnjid (hfresh nj h1)
  · have hnjn : nj = newJob s jid ids false := List.mem_singleton.mp h1
    subst hnjn
    refine ⟨?_, rfl, ?_⟩
    · intro j hj hterm x hx hxin
      exact accepted_not_inflight hxin (hN.inflight j hj hterm x hx)
    · intro x hx hxin
      exact List.mem_filter.mpr ⟨hx, by simpa using hxin⟩

/-- Witness for C1 at the concrete state `exS1` and the enqueue of
`["a","c"]`: the in-flight id `"a"` is not accepted, and the new job
counts one skipped id. -/
theorem no_duplicate_inflight_witness :
    "a" ∈ exS1.inFlight ∧ "a" ∉ exJobC.ids ∧ exJobC.skipped = 1 := by
  have h := no_duplicate_inflight exS1 reachNF_exS1
  refine ⟨h.1 exJobA (by decide) (by decide) "a" (by decide), ?_, ?_⟩
  · exact (h.2 1 ["a", "c"] exS1' (by decide) exJobC (by decide) rfl).1
      exJobA (by decide) (by decide) "a" (by decide)
  · exact ((h.2 1 ["a", "c"] exS1' (by decide) exJobC (by decide) rfl).2.1).trans
      (by decide)

/-- C10 counterexample: `"a"` is accepted by the forced job 1; in the
reachable state `exT5` job 1 is still non-terminal and holds `"a"`, yet a
subsequent `enqueue(["a"], force=false)` accepts `"a"` again with
`skipped = 0` — the non-forced job 0, which also held `"a"`, released it
from the in-flight set when it terminated.  This refutes the claim that
the id is counted as skipped until the forced job reaches a terminal
state. -/
theorem forced_inflight_cx :
    Reach exT5 ∧
    (∃ j ∈ exT5.jobs, j.jid = 1 ∧ j.status.isTerminal = false ∧
      "a" ∈ j.ids) ∧
    step exT5 (Ev.enqueue 2 ["a"] false) = some exT6 ∧
    (∃ nj ∈ exT6.jobs, nj.jid = 2 ∧ "a" ∈ nj.ids ∧ nj.skipped = 0 ∧
      nj.total = 1) :=
  ⟨reach_exT5, by decide, by decide, by decide⟩


/-- Preservation core for C10: an `updJob`-shaped step whose per-job map
preserves job ids and id lists, reflects non-terminality of the mapped
job, and keeps a mapped sole holder non-terminal, preserves
sole-holdership provided the id is still in the new in-flight set. -/
theorem soleHolder_updJob {s : MState} {jid : Nat} {x : String}
    (hSH : SoleHolder s jid x) {i : Nat} {f : AIJob → AIJob}
    (hfjid : ∀ j0, (f j0).jid = j0.jid) (hfids : ∀ j0, (f j0).ids = j0.ids)
    {q' : List Nat} {fl' : List String} {a' : Option Nat} (hfl : x ∈ fl')
    (hnt : ∀ j0 ∈ s.jobs, j0.jid = i → (f j0).status.isTerminal = false →
      j0.status.isTerminal = false)
    (howner : jid = i → ∀ j0 ∈ s.jobs, j0.jid = jid →
      j0.status.isTerminal = false → (f j0).status.isTerminal = false) :
    SoleHolder { jobs := updJob s.jobs i f
                 queue := q'
                 inFlight := fl'
                 active := a' } jid x := by
  obtain ⟨⟨jh, hjh, hjhid, hjhnt, hjhx⟩, _, hothers⟩ := hSH
  refine ⟨?_, hfl, ?_⟩
  · by_cases hjhi : jh.jid = i
    · refine ⟨f jh, mem_updJob.mpr ⟨jh, hjh, by rw [if_pos hjhi]⟩, ?_, ?_, ?_⟩
      · rw [hfjid]; exact hjhid
      · exact howner (hjhid ▸ hjhi) jh hjh hjhid hjhnt
      · rw [hfids]; exact hjhx
    · exact ⟨jh, mem_updJob.mpr ⟨jh, hjh, by rw [if_neg hjhi]⟩, hjhid, hjhnt,
        hjhx⟩
  · intro j' hj' hne hterm
    rcases mem_updJob.mp hj' with ⟨j0, hj0, hif⟩
    by_cases hj0i : j0.jid = i
    · rw [if_pos hj0i] at hif
      subst hif
      rw [hfids]
      refine hothers j0 hj0 (fun hEq => hne ?_) (hnt j0 hj0 hj0i hterm)
      rw [hfjid]
      exact hEq
    · rw [if_neg hj0i] at hif
      subst hif
      exact hothers j0 hj0 hne hterm

/-- Sole-holdership is preserved by a worker step on one image id. -/
theorem soleHolder_workStep {s : MState} {ok : Bool} {s' : MState}
    {jid : Nat} {x : String} (hSH : SoleHolder s jid x)
    (h : workStep s ok = some s') : SoleHolder s' jid x := by
  rcases ha : s.active with _ | jid0
  · simp only [workStep, ha] at h
    cases h
  · simp only [workStep, ha] at h
    rcases hf : s.jobs.find? (fun j0 => j0.jid == jid0) with _ | j
    · simp only [hf] at h
      cases h
    · simp only [hf] at h
      by_cases hg : j.cancel_requested = false ∧ j.pos < j.ids.length
      · rw [if_pos hg] at h
        obtain rfl := (Option.some_inj.mp h).symm
        refine soleHolder_updJob hSH (tagStepJob_jid ok) (tagStepJob_ids ok)
          hSH.2.1 ?_ ?_
        · intro j0 _ _ hterm
          rw [tagStepJob_status] at hterm
          exact hterm
        · intro _ j0 _ _ hnt0
          rw [tagStepJob_status]
          exact hnt0
      · rw [if_neg hg] at h
        cases h

/-- The worker's cancellation observation either terminates the sole
holder (releasing the id) or preserves sole-holdership. -/
theorem soleHolder_observe {s s' : MState} {jid : Nat} {x : String}
    (hI : Inv s) (hSH : SoleHolder s jid x) (h : observeRun s = some s') :
    (∃ j ∈ s'.jobs, j.jid = jid ∧ j.status.isTerminal = true) ∨
    SoleHolder s' jid x := by
  rcases ha : s.active with _ | jid0
  · simp only [observeRun, ha] at h
    cases h
  · simp only [observeRun, ha] at h
    rcases hf : s.jobs.find? (fun j0 => j0.jid == jid0) with _ | j
    · simp only [hf] at h
      cases h
    · simp only [hf] at h
      by_cases hg : j.cancel_requested = true ∧ j.pos < j.ids.length
      · rw [if_pos hg] at h
        obtain rfl := (Option.some_inj.mp h).symm
        obtain ⟨hjmem, hjid0⟩ := find?_jid_some hf
        by_cases hjj : jid0 = jid
        · left
          refine ⟨{ j with status := JStatus.cancelled },
            mem_updJob.mpr ⟨j, hjmem, by rw [if_pos hjid0]⟩,
            hjid0.trans hjj, rfl⟩
        · right
          have hjnt : j.status.isTerminal = false := by
            obtain ⟨j2, hj2, hj2id, hj2st⟩ := hI.activeJob jid0 ha
            have hj2j : j2 = j :=
              jid_inj hI.jidsNodup hj2 hjmem (hj2id.trans hjid0.symm)
            rw [← hj2j]
            rcases hj2st with h4 | h4 <;> rw [h4] <;> rfl
          have hxnj : x ∉ j.ids :=
            hSH.2.2 j hjmem (fun hEq => hjj (hjid0.symm.trans hEq)) hjnt
          refine soleHolder_updJob hSH (fun j0 => ?_) (fun j0 => ?_)
            (mem_removeAll.mpr ⟨hSH.2.1, hxnj⟩) ?_ ?_
          · rfl
          · rfl
          · intro j0 _ _ hterm
            simp [JStatus.isTerminal] at hterm
          · intro hEq
            exact absurd hEq.symm hjj
      · rw [if_neg hg] at h
        cases h

/-- Job finalisation either terminates the sole holder (releasing the id)
or preserves sole-holdership. -/
theorem soleHolder_finish {s s' : MState} {jid : Nat} {x : String}
    (hI : Inv s) (hSH : SoleHolder s jid x) (h : finishRun s = some s') :
    (∃ j ∈ s'.jobs, j.jid = jid ∧ j.status.isTerminal = true) ∨
    SoleHolder s' jid x := by
  rcases ha : s.active with _ | jid0
  · simp only [finishRun, ha] at h
    cases h
  · simp only [finishRun, ha] at h
    rcases hf : s.jobs.find? (fun j0 => j0.jid == jid0) with _ | j
    · simp only [hf] at h
      cases h
    · simp only [hf] at h
      by_cases hg : j.pos = j.ids.length
      · rw [if_pos hg] at h
        obtain rfl := (Option.some_inj.mp h).symm
        obtain ⟨hjmem, hjid0⟩ := find?_jid_some hf
        by_cases hjj : jid0 = jid
        · left
          refine ⟨(if j.status = JStatus.cancelled then j
              else { j with status := if j.failed = 0 then JStatus.done
                else JStatus.error }),
            mem_updJob.mpr ⟨j, hjmem, by rw [if_pos hjid0]⟩, ?_,
            finish_terminal j⟩
          by_cases hc : j.status = JStatus.cancelled
          · rw [if_pos hc]
            exact hjid0.trans hjj
          · rw [if_neg hc]
            exact hjid0.trans hjj
        · right
          have hjnt : j.status.isTerminal = false := by
            obtain ⟨j2, hj2, hj2id, hj2st⟩ := hI.activeJob jid0 ha
            have hj2j : j2 = j :=
              jid_inj hI.jidsNodup hj2 hjmem (hj2id.trans hjid0.symm)
            rw [← hj2j]
            rcases hj2st with h4 | h4 <;> rw [h4] <;> rfl
          have hxnj : x ∉ j.ids :=
            hSH.2.2 j hjmem (fun hEq => hjj (hjid0.symm.trans hEq)) hjnt
          refine soleHolder_updJob hSH (fun j0 => ?_) (fun j0 => ?_)
            (mem_removeAll.mpr ⟨hSH.2.1, hxnj⟩) ?_ ?_
          · by_cases hc : j0.status = JStatus.cancelled
            · rw [if_pos hc]
            · rw [if_neg hc]
          · by_cases hc : j0.status = JStatus.cancelled
            · rw [if_pos hc]
            · rw [if_neg hc]
          · intro j0 _ _ hterm
            rw [finish_terminal j0] at hterm
            cases hterm
          · intro hEq
            exact absurd hEq.symm hjj
      · rw [if_neg hg] at h
        cases h

/-- C10 (amended): an `enqueue` with `force=True` still registers every
accepted id (all unique requested ids) in the shared in-flight set; any id
in the in-flight set is excluded from the accepted list of a `force=false`
enqueue, whose `skipped` counter counts the unique requested in-flight
ids; and while a job is the sole non-terminal holder of an id, every step
other than a forced enqueue re-accepting that id either drives that job to
a terminal state (which is what releases the id) or preserves
sole-holdership — so the id stays in flight, and is counted as skipped by
non-forced enqueues, until the forced job reaches a terminal state.  When
another job also holds the id (possible only through earlier `force`
calls), that job's termination may release the id early. -/
theorem forced_enqueue_inflight :
    (∀ (s : MState) (jid : Nat) (ids : List String) (s' : MState),
      step s (Ev.enqueue jid ids true) = some s' →
      ∀ nj ∈ s'.jobs, nj.jid = jid →
        nj.ids = cleanIds ids ∧ ∀ x ∈ nj.ids, x ∈ s'.inFlight) ∧
    (∀ (s : MState) (x : String), x ∈ s.inFlight →
      ∀ (jid : Nat) (ids : List String) (s' : MState),
        step s (Ev.enqueue jid ids false) = some s' →
        ∀ nj ∈ s'.jobs, nj.jid = jid →
          x ∉ nj.ids ∧
          nj.skipped =
            ((cleanIds ids).filter (fun i => i ∈ s.inFlight)).length) ∧
    (∀ s : MState, Reach s → ∀ (jid : Nat) (x : String), SoleHolder s jid x →
      ∀ (e : Ev) (s' : MState), step s e = some s' → ¬ EvAccepts e x →
        (∃ j ∈ s'.jobs, j.jid = jid ∧ j.status.isTerminal = true) ∨
        SoleHolder s' jid x) := by
  refine ⟨?_, ?_, ?_⟩
  · intro s jid ids s' hstep nj hnj hnjid
    obtain ⟨hfresh, rfl⟩ := step_enqueue_eq hstep
    rcases List.mem_append.mp hnj with h1 | h1
    · exact absurd hnjid (hfresh nj h1)
    · have hnjn : nj = newJob s jid ids true := List.mem_singleton.mp h1
      subst hnjn
      exact ⟨rfl, fun x hx => mem_addAll.mpr (Or.inr hx)⟩
  · intro s x hxin jid ids s' hstep nj hnj hnjid
    obtain ⟨hfresh, rfl⟩ := step_enqueue_eq hstep
    rcases List.mem_append.mp hnj with h1 | h1
    · exact absurd hnjid (hfresh nj h1)
    · have hnjn : nj = newJob s jid ids false := List.mem_singleton.mp h1
      subst hnjn
      exact ⟨fun hx => accepted_not_inflight hx hxin, rfl⟩
  · intro s hs jid x hSH e s' hstep hnacc
    have hI := reach_inv hs
    cases e with
    | enqueue jid2 ids2 force =>
      obtain ⟨hfresh, rfl⟩ := step_enqueue_eq hstep
      obtain ⟨⟨jh, hjh, hjhid, hjhnt, hjhx⟩, hxinf, hothers⟩ := hSH
      right
      refine ⟨⟨jh, List.mem_append_left _ hjh, hjhid, hjhnt, hjhx⟩,
        mem_addAll.mpr (Or.inl hxinf), ?_⟩
      intro j' hj' hne hterm
      rcases List.mem_append.mp hj' with h1 | h1
      · exact hothers j' h1 hne hterm
      · have hjn : j' = newJob s jid2 ids2 force := List.mem_singleton.mp h1
        subst hjn
        cases force with
        | true => exact fun hx => hnacc hx
        | false => exact fun hx => accepted_not_inflight hx hxinf
    | cancel jid2 =>
      obtain rfl := step_cancel_eq hstep
      rcases hf : s.jobs.find? (fun j0 => j0.jid == jid2) with _ | j
      · simp only [cancelRun, hf]
        exact Or.inr hSH
      · obtain ⟨hjmem, hjid2⟩ := find?_jid_some hf
        by_cases hq : j.status = .queued
        · simp only [cancelRun, hf, if_pos hq]
          by_cases hjj : jid2 = jid
          · left
            refine ⟨{ j with status := JStatus.cancelled },
              mem_updJob.mpr ⟨j, hjmem, by rw [if_pos hjid2]⟩,
              hjid2.trans hjj, rfl⟩
          · right
            have hxnj : x ∉ j.ids :=
              hSH.2.2 j hjmem (fun hEq => hjj (hjid2.symm.trans hEq))
                (by rw [hq]; rfl)
            refine soleHolder_updJob hSH (fun j0 => ?_) (fun j0 => ?_)
              (mem_removeAll.mpr ⟨hSH.2.1, hxnj⟩) ?_ ?_
            · rfl
            · rfl
            · intro j0 _ _ hterm
              simp [JStatus.isTerminal] at hterm
            · intro hEq
              exact absurd hEq.symm hjj
        · by_cases hro : j.status = .running ∨ j.status = .cancelling
          · simp only [cancelRun, hf, if_neg hq, if_pos hro]
            right
            refine soleHolder_updJob hSH (fun j0 => ?_) (fun j0 => ?_)
              hSH.2.1 ?_ ?_
            · rfl
            · rfl
            · intro j0 hj0 hj0i _
              have hj0j : j0 = j :=
                jid_inj hI.jidsNodup hj0 hjmem (hj0i.trans hjid2.symm)
              rw [hj0j]
              rcases hro with h4 | h4 <;> rw [h4] <;> rfl
            · intro _ j0 _ _ _
              rfl
          · simp only [cancelRun, hf, if_neg hq, if_neg hro]
            exact Or.inr hSH
    | pick =>
      rcases ha : s.active with _ | jid0
      · rcases hqe : s.queue with _ | ⟨jid0, rest⟩
        · simp only [step, ha, hqe] at hstep
          cases hstep
        · simp only [step, ha, hqe] at hstep
          rcases hf : s.jobs.find? (fun j0 => j0.jid == jid0) with _ | j
          · simp only [hf] at hstep
            obtain rfl := (Option.some_inj.mp hstep).symm
            exact Or.inr hSH
          · simp only [hf] at hstep
            obtain ⟨hjmem, hjid0⟩ := find?_jid_some hf
            by_cases hc : j.status = .cancelled
            · rw [if_pos hc] at hstep
              obtain rfl := (Option.some_inj.mp hstep).symm
              exact Or.inr hSH
            · rw [if_neg hc] at hstep
              obtain rfl := (Option.some_inj.mp hstep).symm
              right
              refine soleHolder_updJob hSH (fun j0 => ?_) (fun j0 => ?_)
                hSH.2.1 ?_ ?_
              · rfl
              · rfl
              · intro j0 hj0 hj0i _
                obtain ⟨j1, hj1, hj1q, hs1⟩ :=
                  hI.queueJobs jid0 (hqe ▸ List.mem_cons_self _ _)
                have hj0j1 : j0 = j1 :=
                  jid_inj hI.jidsNodup hj0 hj1 (hj0i.trans hj1q.symm)
                rw [hj0j1, hs1]
                rfl
              · intro _ j0 _ _ _
                rfl
      · rcases hqe : s.queue with _ | ⟨a, b⟩ <;>
          simp only [step, ha, hqe] at hstep <;> cases hstep
    | stepOk => exact Or.inr (soleHolder_workStep hSH hstep)
    | stepFail => exact Or.inr (soleHolder_workStep hSH hstep)
    | observeCancel => exact soleHolder_observe hI hSH hstep
    | finish => exact soleHolder_finish hI hSH hstep

/-- Witness for C10 (amended): the forced enqueue of `["a"]` on `exT1`
registers `"a"` in the in-flight set, and an immediate `force=false`
enqueue of `["a"]` from `exT2` skips it. -/
theorem forced_enqueue_inflight_witness :
    ("a" ∈ exT2.inFlight) ∧
    (∀ nj ∈ exT2.jobs, nj.jid = 1 → "a" ∈ nj.ids) ∧
    (∀ s3 : MState, step exT2 (Ev.enqueue 5 ["a"] false) = some s3 →
      ∀ nj ∈ s3.jobs, nj.jid = 5 → "a" ∉ nj.ids ∧ nj.skipped = 1) := by
  have h1 := forced_enqueue_inflight.1 exT1 1 ["a"] exT2 (by decide)
  have h2 := forced_enqueue_inflight.2.1 exT2 "a" (by decide) 5 ["a"]
  refine ⟨?_, ?_, ?_⟩
  · exact (h1 { exJobB with jid := 1 } (by decide) rfl).2 "a" (by decide)
  · intro nj hnj hnjid
    have : nj = { exJobB with jid := 1 } := by
      rcases List.mem_cons.mp hnj with h3 | h3
      · exfalso
        rw [h3] at hnjid
        exact absurd hnjid (by decide)
      · rcases List.mem_cons.mp h3 with h4 | h4
        · exact h4
        · cases h4
    rw [this]
    exact (h1 { exJobB with jid := 1 } (by decide) rfl).2 "a" (by decide)
  · intro s3 hstep nj hnj hnjid
    have h3 := h2 s3 hstep nj hnj hnjid
    refine ⟨h3.1, h3.2.trans (by decide)⟩

/-- C5: the scan upsert writes only the metadata fields through `$set` —
on a record that already exists, `tags` and `has_tags` are never modified
(they appear only under `$setOnInsert`, which applies just on insert,
where it yields `tags = []` and `has_tags = false`) — and running a scan
twice over an unchanged directory (same per-file docs, same discovered-id
set) yields the same catalog, record for record. -/
theorem scan_tag_preservation :
    (∀ (c : CatalogF) (d : ScanDoc) (r : CatalogRec), c d.id = some r →
      upsertF c d d.id = some (setFields r d) ∧
      (setFields r d).tags = r.tags ∧
      (setFields r d).has_tags = r.has_tags ∧
      (setFields r d).path = d.path ∧
      (setFields r d).size = d.size ∧
      (setFields r d).width = d.width ∧
      (setFields r d).height = d.height ∧
      (setFields r d).ctime = d.ctime ∧
      (setFields r d).mtime = d.mtime ∧
      (setFields r d).original_key = some d.original_key ∧
      (setFields r d).thumb_key = d.thumb_key) ∧
    (∀ (c : CatalogF) (d : ScanDoc), c d.id = none →
      upsertF c d d.id = some (insertDefaults d) ∧
      (insertDefaults d).tags = [] ∧
      (insertDefaults d).has_tags = false) ∧
    (∀ (c : CatalogF) (lib : String) (docs : List ScanDoc)
        (disc : List String), (∀ d ∈ docs, d.id ∈ disc) →
      ∀ k, runScanF (runScanF c lib docs disc) lib docs disc k =
        runScanF c lib docs disc k) := by
  refine ⟨?_, ?_, ?_⟩
  · intro c d r hc
    refine ⟨?_, rfl, rfl, rfl, rfl, rfl, rfl, rfl, rfl, rfl, rfl⟩
    rw [upsertF_at, hc]
    rfl
  · intro c d hc
    refine ⟨?_, rfl, rfl⟩
    rw [upsertF_at, hc]
    rfl
  · intro c lib docs disc hd k
    have hrhs : runScanF c lib docs disc k =
        rAt lib disc k (List.foldl upAt (c k)
          (docs.filter (fun d => d.id = k))) := by
      show reconcileF (applyDocsF c docs) lib disc k = _
      rw [reconcileF_at, applyDocsF_at]
    have hlhs : runScanF (runScanF c lib docs disc) lib docs disc k =
        rAt lib disc k (List.foldl upAt (runScanF c lib docs disc k)
          (docs.filter (fun d => d.id = k))) := by
      show reconcileF (applyDocsF (runScanF c lib docs disc) docs) lib disc k = _
      rw [reconcileF_at, applyDocsF_at]
    rw [hlhs, hrhs]
    rcases List.eq_nil_or_concat (docs.filter (fun d => d.id = k)) with
      hl | ⟨L, d, hl⟩
    · rw [hl]
      exact rAt_rAt lib disc k (c k)
    · rw [List.concat_eq_append] at hl
      have hdmem : d ∈ docs.filter (fun d => d.id = k) := by
        rw [hl]
        exact List.mem_append_right _ (List.mem_singleton.mpr rfl)
      have hdk : d ∈ docs ∧ d.id = k := by
        have hm := List.mem_filter.mp hdmem
        exact ⟨hm.1, by simpa using hm.2⟩
      have hkdisc : k ∈ disc := hdk.2 ▸ hd d hdk.1
      have hr1 : rAt lib disc k (upAt (c k) d) = upAt (c k) d :=
        rAt_of_disc lib disc k _ hkdisc
      rw [hl, foldl_upAt_concat, foldl_upAt_concat, hr1, upAt_upAt]
      exact hr1

/-- Witness for C5 on a one-record catalog with manual tags. -/
theorem scan_tag_preservation_witness :
    upsertF exCatF exDoc exDoc.id = some (setFields exRec exDoc) ∧
    (setFields exRec exDoc).tags = exRec.tags ∧
    (setFields exRec exDoc).has_tags = exRec.has_tags ∧
    runScanF (runScanF exCatF "L" [exDoc] ["L:a.jpg"]) "L" [exDoc]
        ["L:a.jpg"] "L:a.jpg" =
      runScanF exCatF "L" [exDoc] ["L:a.jpg"] "L:a.jpg" := by
  have h1 := scan_tag_preservation.1 exCatF exDoc exRec (by decide)
  exact ⟨h1.1, h1.2.1, h1.2.2.1,
    scan_tag_preservation.2.2 exCatF "L" [exDoc] ["L:a.jpg"] (by decide)
      "L:a.jpg"⟩

/-- C6: after the reconciliation phase, a catalog record of the scanned
library whose id is not in the discovered-id set is deleted; a record
whose id was discovered is kept; the blob keys of every stale record
(its `original_key` and `thumb_key` when present) are collected for
deletion; and the phase's outcome — the reconciled catalog, with the scan
not failed — is the same whether or not the blob store fails, because
blob-object removal is wrapped in `try: ... except: pass`. -/
theorem stale_reconciliation :
    (∀ (c : Catalog) (lib : String) (disc : List String) (k : String)
        (r : CatalogRec), (k, r) ∈ c → r.library_id = lib → k ∉ disc →
      ∀ r', (k, r') ∉ reconcileCatalog c lib disc) ∧
    (∀ (c : Catalog) (lib : String) (disc : List String) (k : String)
        (r : CatalogRec), (k, r) ∈ c → k ∈ disc →
      (k, r) ∈ reconcileCatalog c lib disc) ∧
    (∀ (c : Catalog) (lib : String) (disc : List String) (k : String)
        (r : CatalogRec), (k, r) ∈ c → r.library_id = lib → k ∉ disc →
      (∀ ko, r.original_key = some ko → ko ∈ staleBlobKeys c lib disc) ∧
      (∀ kt, r.thumb_key = some kt → kt ∈ staleBlobKeys c lib disc)) ∧
    (∀ (c : Catalog) (lib : String) (disc : List String)
        (blobs : List String) (blobFails : Bool),
      (reconcileRun c lib disc blobs blobFails).catalog =
        reconcileCatalog c lib disc ∧
      (reconcileRun c lib disc blobs blobFails).scanFailed = false) := by
  refine ⟨?_, ?_, ?_, ?_⟩
  · intro c lib disc k r hc hlib hnd r' hmem
    have hstale : (k, r) ∈ staleEntries c lib disc :=
      mem_staleEntries.mpr ⟨hc, hlib, hnd⟩
    have hk : k ∈ (staleEntries c lib disc).map Prod.fst :=
      List.mem_map_of_mem Prod.fst hstale
    have := (List.mem_filter.mp hmem).2
    rw [decide_eq_true_eq] at this
    exact this hk
  · intro c lib disc k r hc hkd
    refine List.mem_filter.mpr ⟨hc, ?_⟩
    rw [decide_eq_true_eq]
    intro hk
    rcases List.mem_map.mp hk with ⟨kv, hkv, hfst⟩
    obtain ⟨_, _, hnd⟩ := mem_staleEntries.mp hkv
    exact hnd (hfst ▸ hkd)
  · intro c lib disc k r hc hlib hnd
    exact mem_blobKeysOf (mem_staleEntries.mpr ⟨hc, hlib, hnd⟩)
  · intro c lib disc blobs blobFails
    exact ⟨rfl, rfl⟩

/-- Witness for C6 on the two-record catalog `exCat`: the discovered
record survives, the stale record is deleted, and its blob keys are
collected. -/
theorem stale_reconciliation_witness :
    ("L:a.jpg", exRec) ∈ reconcileCatalog exCat "L" ["L:a.jpg"] ∧
    (∀ r', ("L:gone.jpg", r') ∉ reconcileCatalog exCat "L" ["L:a.jpg"]) ∧
    "og" ∈ staleBlobKeys exCat "L" ["L:a.jpg"] ∧
    (reconcileRun exCat "L" ["L:a.jpg"] ["og", "o1"] true).scanFailed =
      false := by
  refine ⟨?_, ?_, ?_, ?_⟩
  · exact stale_reconciliation.2.1 exCat "L" ["L:a.jpg"] "L:a.jpg" exRec
      (by decide) (by decide)
  · exact stale_reconciliation.1 exCat "L" ["L:a.jpg"] "L:gone.jpg" exRecGone
      (by decide) (by decide) (by decide)
  · exact (stale_reconciliation.2.2.1 exCat "L" ["L:a.jpg"] "L:gone.jpg"
      exRecGone (by decide) (by decide) (by decide)).1 "og" (by decide)
  · exact (stale_reconciliation.2.2.2 exCat "L" ["L:a.jpg"] ["og", "o1"]
      true).2

/-- C7: a file whose original upload fails (after its bounded retries)
yields a failure result at stage `"upload_original"`, which the scan
coordinator counts in `failed` and samples (while fewer than 20 samples
exist) without queueing any catalog upsert; a failed thumbnail upload or
failed thumbnail generation never fails the file — it is still ingested
with `thumb_key = none`; and an undecodable image never fails the file —
its dimensions default to `width = height = 0`. -/
theorem per_file_upload_failure :
    (∀ (lib : String) (e : FileEnv) (msg : String), e.statOk = true →
      e.origUpload = UpRes.err msg →
      process_image lib e =
        ScanRes.failure (lib ++ ":" ++ e.rel) "upload_original" msg ∧
      ∀ agg : ScanAgg,
        (handleResult agg (process_image lib e)).failed = agg.failed + 1 ∧
        (handleResult agg (process_image lib e)).ops = agg.ops ∧
        (agg.samples.length < 20 →
          (handleResult agg (process_image lib e)).samples =
            agg.samples ++
              [(lib ++ ":" ++ e.rel, "upload_original", msg)])) ∧
    (∀ (lib : String) (e : FileEnv) (okey : String), e.statOk = true →
      e.origUpload = UpRes.ok okey →
      ∃ d : ScanDoc, process_image lib e = ScanRes.ok d ∧
        d.original_key = okey ∧
        ((e.thumbGenerated = false ∨ (∃ m, e.thumbUpload = UpRes.err m)) →
          d.thumb_key = none) ∧
        ∀ agg : ScanAgg,
          (handleResult agg (process_image lib e)).ops = agg.ops ++ [d] ∧
          (handleResult agg (process_image lib e)).failed = agg.failed) ∧
    (∀ (lib : String) (e : FileEnv) (okey : String), e.statOk = true →
      e.origUpload = UpRes.ok okey → e.dims = none →
      ∃ d : ScanDoc, process_image lib e = ScanRes.ok d ∧
        d.width = 0 ∧ d.height = 0) := by
  refine ⟨?_, ?_, ?_⟩
  · intro lib e msg hstat horig
    have hp : process_image lib e =
        ScanRes.failure (lib ++ ":" ++ e.rel) "upload_original" msg := by
      simp [process_image, hstat, horig]
    refine ⟨hp, ?_⟩
    intro agg
    rw [hp]
    refine ⟨rfl, rfl, ?_⟩
    intro hlen
    show (if agg.samples.length < 20 then _ else agg.samples) = _
    rw [if_pos hlen]
  · intro lib e okey hstat horig
    have hp : process_image lib e = ScanRes.ok
        { id := lib ++ ":" ++ e.rel
          library_id := lib
          path := e.path
          size := e.size
          width := (e.dims.getD (0, 0)).1
          height := (e.dims.getD (0, 0)).2
          ctime := e.ctime
          mtime := e.mtime
          original_key := okey
          thumb_key :=
            if e.thumbGenerated then
              match e.thumbUpload with
              | UpRes.ok k => some k
              | UpRes.err _ => none
            else none } := by
      simp [process_image, hstat, horig]
    refine ⟨_, hp, rfl, ?_, ?_⟩
    · intro hbad
      rcases hbad with hgen | ⟨m, herr⟩
      · simp [hgen]
      · simp [herr]
    · intro agg
      rw [hp]
      exact ⟨rfl, rfl⟩
  · intro lib e okey hstat horig hdims
    have hp : process_image lib e = ScanRes.ok
        { id := lib ++ ":" ++ e.rel
          library_id := lib
          path := e.path
          size := e.size
          width := 0
          height := 0
          ctime := e.ctime
          mtime := e.mtime
          original_key := okey
          thumb_key :=
            if e.thumbGenerated then
              match e.thumbUpload with
              | UpRes.ok k => some k
              | UpRes.err _ => none
            else none } := by
      simp [process_image, hstat, horig, hdims]
    exact ⟨_, hp, rfl, rfl⟩

/-- Witness for C7: a concrete environment whose original upload fails,
one with a failing thumbnail upload, and one with undecodable
dimensions. -/
theorem per_file_upload_failure_witness :
    process_image "L" { exEnvOk with origUpload := UpRes.err "io" } =
      ScanRes.failure "L:a.jpg" "upload_original" "io" ∧
    (∃ d : ScanDoc,
      process_image "L" { exEnvOk with thumbUpload := UpRes.err "io" } =
        ScanRes.ok d ∧ d.thumb_key = none) ∧
    (∃ d : ScanDoc,
      process_image "L" { exEnvOk with dims := none } = ScanRes.ok d ∧
        d.width = 0 ∧ d.height = 0) := by
  refine ⟨?_, ?_, ?_⟩
  · exact (per_file_upload_failure.1 "L"
      { exEnvOk with origUpload := UpRes.err "io" } "io" rfl rfl).1
  · obtain ⟨d, hd, _, hthumb, _⟩ := per_file_upload_failure.2.1 "L"
      { exEnvOk with thumbUpload := UpRes.err "io" } "o2" rfl rfl
    exact ⟨d, hd, hthumb (Or.inr ⟨"io", rfl⟩)⟩
  · obtain ⟨d, hd, hw, hh⟩ := per_file_upload_failure.2.2 "L"
      { exEnvOk with dims := none } "o2" rfl rfl rfl
    exact ⟨d, hd, hw, hh⟩

/-- C8: on an idle-unload tick with threshold `T > 0`, a loaded model
whose (positive) `last_used` stamp lies more than `T` seconds in the past
is unloaded, while a model used within the last `T` seconds is not; a
non-positive threshold disables eviction entirely; and in every reachable
tagger state (all wall-clock stamps being positive), a loaded model has a
positive `last_used` stamp, so the positivity proviso is no restriction. -/
theorem idle_eviction :
    (∀ (T : Int) (last now : ℚ), 0 < T → 0 < last → now - last > (T : ℚ) →
      idleTick true last now T = true) ∧
    (∀ (T : Int) (loaded : Bool) (last now : ℚ), now - last ≤ (T : ℚ) →
      idleTick loaded last now T = false) ∧
    (∀ (T : Int) (loaded : Bool) (last now : ℚ), T ≤ 0 →
      idleTick loaded last now T = false) ∧
    (∀ s : TagSt, TReach s → s.loaded = true → 0 < s.last_used) := by
  refine ⟨?_, ?_, ?_, ?_⟩
  · intro T last now hT hlast hgt
    rw [idleTick, if_neg (by omega), if_neg (by simp),
      if_pos ⟨ne_of_gt hlast, hgt⟩]
  · intro T loaded last now hle
    rw [idleTick]
    by_cases h1 : T ≤ 0
    · rw [if_pos h1]
    · rw [if_neg h1]
      by_cases h2 : loaded = false
      · rw [if_pos h2]
      · rw [if_neg h2, if_neg ?_]
        rintro ⟨_, hgt⟩
        exact absurd hgt (not_lt.mpr hle)
  · intro T loaded last now hT
    rw [idleTick, if_pos hT]
  · intro s hs
    induction hs with
    | init => intro h; cases h
    | next hr ht ih =>
      rename_i s0 e0
      cases e0 with
      | load t =>
        intro _
        exact ht t rfl
      | predict t =>
        intro _
        exact ht t rfl
      | unloadModel =>
        intro h
        cases h
      | tick now idleS =>
        show (tstep s0 (TEv.tick now idleS)).loaded = true → _
        rw [tstep]
        by_cases hti : idleTick s0.loaded s0.last_used now idleS = true
        · rw [if_pos hti]
          intro h
          cases h
        · rw [if_neg hti]
          exact ih

/-- Witness for C8 at concrete times: threshold 5, last used at 1, tick at
10 unloads; tick at 3 does not; threshold 0 never unloads; and a freshly
loaded model has a positive stamp. -/
theorem idle_eviction_witness :
    idleTick true 1 10 5 = true ∧
    idleTick true 1 3 5 = false ∧
    idleTick true 1 100 0 = false ∧
    0 < (tstep tInit (TEv.load 2)).last_used := by
  refine ⟨?_, ?_, ?_, ?_⟩
  · exact idle_eviction.1 5 1 10 (by norm_num) (by norm_num) (by norm_num)
  · exact idle_eviction.2.1 5 true 1 3 (by norm_num)
  · exact idle_eviction.2.2.1 0 true 1 100 (by norm_num)
  · exact idle_eviction.2.2.2 (tstep tInit (TEv.load 2))
      (TReach.next TReach.init (fun t ht => by
        rw [show t = 2 from (Option.some_inj.mp ht).symm]; norm_num)) rfl

/-- C9 counterexample: on an inference result with an empty rating
distribution, `_tag_one` writes the sentinel `"-"` as the record's
rating, not the string `"no rating"` asserted by the claim. -/
theorem rating_sentinel_cx :
    (mergeUpdate { rating := [], general_tags := [], character_tags := [] }
      ).rating = "-" ∧
    "-" ≠ "no rating" := by
  exact ⟨rfl, by decide⟩

/-- C9 (amended): for every successfully tagged image, the record's rating
is set to a label of maximal probability in the result's rating
distribution (the first such label in iteration order), and to the
sentinel `"-"` — not `"no rating"` — when the distribution is empty. -/
theorem rating_merge_policy :
    (∀ r : InferOut, r.rating = [] → (mergeUpdate r).rating = "-") ∧
    (∀ (r : InferOut) (kv : String × ℚ) (rest : List (String × ℚ)),
      r.rating = kv :: rest →
      ∃ p : ℚ, ((mergeUpdate r).rating, p) ∈ r.rating ∧
        ∀ x ∈ r.rating, x.2 ≤ p) := by
  constructor
  · intro r hr
    show ratingLabel r.rating = "-"
    rw [hr]
    rfl
  · intro r kv rest hr
    refine ⟨(maxKV kv rest).2, ?_, ?_⟩
    · show ((mergeUpdate r).rating, (maxKV kv rest).2) ∈ r.rating
      have hlabel : (mergeUpdate r).rating = (maxKV kv rest).1 := by
        show ratingLabel r.rating = _
        rw [hr]
        rfl
      rw [hlabel, hr]
      exact maxKV_mem kv rest
    · intro x hx
      rw [hr] at hx
      exact maxKV_ge kv rest x hx

/-- Witness for C9 (amended) on a concrete rating distribution. -/
theorem rating_merge_policy_witness :
    (mergeUpdate { rating := []
                   general_tags := [("sky", 9/10)]
                   character_tags := [] }).rating = "-" ∧
    ∃ p : ℚ, ((mergeUpdate exInfer).rating, p) ∈ exInfer.rating ∧
      ∀ x ∈ exInfer.rating, x.2 ≤ p := by
  constructor
  · exact rating_merge_policy.1
      { rating := []
        general_tags := [("sky", 9/10)]
        character_tags := [] } rfl
  · exact rating_merge_policy.2 exInfer ("general", 1/2)
      [("sensitive", 3/4), ("explicit", 1/8)] rfl

end Tagify
